import Mathlib

/-! # Trireme Platform: message encodings and benchmark applications

A shallow embedding of

* `rtl/includes/params.h`: the bus opcodes, the coherence states and the NoC opcodes, each a
  `localparam` with a fixed numeric value;
* `software/applications/src/binary_search.c`, `prime_number_counter.c` and
  `short_mandelbrot.c`: the benchmark programs.

C `int` values are modelled as integers kept in the range `[-2^31, 2^31)` by `wrap32` after every
arithmetic operation; `unsigned int` values are naturals reduced modulo `2^32`.  Loops and
recursive functions take a fuel argument and yield `none` when it runs out (or when an array is
read or written outside its bounds).
-/

namespace Trireme

/-! ## `params.h`: bus messages -/

def NO_REQ : Nat := 0
def R_REQ : Nat := 1
def RFO_BCAST : Nat := 2
def WB_REQ : Nat := 3
def FLUSH : Nat := 4
def FLUSH_S : Nat := 5
def WS_BCAST : Nat := 6
def C_WB : Nat := 7
def C_FLUSH : Nat := 8
def EN_ACCESS : Nat := 9
def HOLD_BUS : Nat := 10
def REQ_FLUSH : Nat := 11
def MEM_C_RESP : Nat := 12
def MEM_RESP : Nat := 13
def MEM_RESP_S : Nat := 14

/-! ## `params.h`: coherence states -/

def INVALID : Nat := 0b00
def EXCLUSIVE : Nat := 0b01
def SHARED : Nat := 0b11
def MODIFIED : Nat := 0b10

/-! ## `params.h`: NoC messages (in the order of the source) -/

def NoMsg : Nat := 0
def GetS : Nat := 1
def GetM : Nat := 2
def PutM : Nat := 3
def PutS : Nat := 4
def PutE : Nat := 5
def InvAck : Nat := 6
def NackD : Nat := 8
def RespPutM : Nat := 9
def NackC : Nat := 15
def FwdGetS : Nat := 10
def Inv : Nat := 11
def PutAck : Nat := 12
def Data : Nat := 13
def DataS : Nat := 14
def NackB : Nat := 7

/-- The four stable coherence states named by `params.h`. -/
inductive CoherenceState where
  | INVALID | EXCLUSIVE | SHARED | MODIFIED
  deriving DecidableEq, Repr

/-- The fifteen bus messages named by `params.h`. -/
inductive BusOp where
  | NO_REQ | R_REQ | RFO_BCAST | WB_REQ | FLUSH | FLUSH_S | WS_BCAST | C_WB | C_FLUSH
  | EN_ACCESS | HOLD_BUS | REQ_FLUSH | MEM_C_RESP | MEM_RESP | MEM_RESP_S
  deriving DecidableEq, Repr

/-- The sixteen NoC messages named by `params.h`. -/
inductive NoCOp where
  | NoMsg | GetS | GetM | PutM | PutS | PutE | InvAck | NackD | RespPutM | NackC
  | FwdGetS | Inv | PutAck | Data | DataS | NackB
  deriving DecidableEq, Repr

/-- The value `params.h` gives to a coherence state. -/
def encodeState : CoherenceState → Nat
  | .INVALID => INVALID
  | .EXCLUSIVE => EXCLUSIVE
  | .SHARED => SHARED
  | .MODIFIED => MODIFIED

/-- The coherence state whose `localparam` equals the 2-bit value, if any. -/
def decodeState (v : Nat) : Option CoherenceState :=
  if v = INVALID then some .INVALID
  else if v = EXCLUSIVE then some .EXCLUSIVE
  else if v = SHARED then some .SHARED
  else if v = MODIFIED then some .MODIFIED
  else none

/-- The value `params.h` gives to a bus message. -/
def encodeBus : BusOp → Nat
  | .NO_REQ => NO_REQ
  | .R_REQ => R_REQ
  | .RFO_BCAST => RFO_BCAST
  | .WB_REQ => WB_REQ
  | .FLUSH => FLUSH
  | .FLUSH_S => FLUSH_S
  | .WS_BCAST => WS_BCAST
  | .C_WB => C_WB
  | .C_FLUSH => C_FLUSH
  | .EN_ACCESS => EN_ACCESS
  | .HOLD_BUS => HOLD_BUS
  | .REQ_FLUSH => REQ_FLUSH
  | .MEM_C_RESP => MEM_C_RESP
  | .MEM_RESP => MEM_RESP
  | .MEM_RESP_S => MEM_RESP_S

/-- The bus message whose `localparam` equals the value, if any. -/
def decodeBus (v : Nat) : Option BusOp :=
  if v = NO_REQ then some .NO_REQ
  else if v = R_REQ then some .R_REQ
  else if v = RFO_BCAST then some .RFO_BCAST
  else if v = WB_REQ then some .WB_REQ
  else if v = FLUSH then some .FLUSH
  else if v = FLUSH_S then some .FLUSH_S
  else if v = WS_BCAST then some .WS_BCAST
  else if v = C_WB then some .C_WB
  else if v = C_FLUSH then some .C_FLUSH
  else if v = EN_ACCESS then some .EN_ACCESS
  else if v = HOLD_BUS then some .HOLD_BUS
  else if v = REQ_FLUSH then some .REQ_FLUSH
  else if v = MEM_C_RESP then some .MEM_C_RESP
  else if v = MEM_RESP then some .MEM_RESP
  else if v = MEM_RESP_S then some .MEM_RESP_S
  else none

/-- The value `params.h` gives to a NoC message. -/
def encodeNoC : NoCOp → Nat
  | .NoMsg => NoMsg
  | .GetS => GetS
  | .GetM => GetM
  | .PutM => PutM
  | .PutS => PutS
  | .PutE => PutE
  | .InvAck => InvAck
  | .NackD => NackD
  | .RespPutM => RespPutM
  | .NackC => NackC
  | .FwdGetS => FwdGetS
  | .Inv => Inv
  | .PutAck => PutAck
  | .Data => Data
  | .DataS => DataS
  | .NackB => NackB

/-- The NoC message whose `localparam` equals the value, if any. -/
def decodeNoC (v : Nat) : Option NoCOp :=
  if v = NoMsg then some .NoMsg
  else if v = GetS then some .GetS
  else if v = GetM then some .GetM
  else if v = PutM then some .PutM
  else if v = PutS then some .PutS
  else if v = PutE then some .PutE
  else if v = InvAck then some .InvAck
  else if v = NackD then some .NackD
  else if v = RespPutM then some .RespPutM
  else if v = NackC then some .NackC
  else if v = FwdGetS then some .FwdGetS
  else if v = Inv then some .Inv
  else if v = PutAck then some .PutAck
  else if v = Data then some .Data
  else if v = DataS then some .DataS
  else if v = NackB then some .NackB
  else none

/-- The NoC messages in the order in which the specification lists them. -/
def nocSpecOrder : List NoCOp :=
  [.NoMsg, .GetS, .GetM, .PutM, .PutS, .PutE, .InvAck, .NackB, .NackD, .RespPutM, .FwdGetS,
   .Inv, .PutAck, .Data, .DataS, .NackC]

/-- The bus messages in the order in which the specification lists them. -/
def busSpecOrder : List BusOp :=
  [.NO_REQ, .R_REQ, .RFO_BCAST, .WB_REQ, .FLUSH, .FLUSH_S, .WS_BCAST, .C_WB, .C_FLUSH,
   .EN_ACCESS, .HOLD_BUS, .REQ_FLUSH, .MEM_C_RESP, .MEM_RESP, .MEM_RESP_S]

/-! ## Machine integers -/

/-- Reduce an integer to the range `[-2^31, 2^31)` of a 32-bit two's complement `int`. -/
def wrap32 (x : Int) : Int := (x + 2 ^ 31) % 2 ^ 32 - 2 ^ 31

/-- The `unsigned int` that has the same 32 bits as an `int`: the cast `(unsigned int)x`. -/
def toU32 (x : Int) : Nat := (x % 2 ^ 32).toNat

/-- The `int` that has the same 32 bits as an `unsigned int`: the cast `(signed int)n`. -/
def toI32 (n : Nat) : Int := wrap32 (n : Int)

/-- Read `data[i]`; `none` outside the array. -/
def readAt (data : List Int) (i : Int) : Option Int :=
  if 0 ≤ i then data[i.toNat]? else none

/-- Write `data[i] = v`; `none` outside the array. -/
def writeAt (data : List Int) (i : Int) (v : Int) : Option (List Int) :=
  if 0 ≤ i ∧ i.toNat < data.length then some (data.set i.toNat v) else none

/-! ## `multu` and `mult`

`prime_number_counter.c` and `short_mandelbrot.c` contain the same two functions, character for
character. -/

/-- One pass of the body of the loop of `multu`, for the loop counter `i`. -/
def multuStep (a b : Nat) (product : Nat) (i : Nat) : Nat :=
  if 0x00000001 &&& (a >>> i) ≠ 0 then (product + (b <<< i) % 2 ^ 32) % 2 ^ 32 else product

/-- `unsigned int multu(unsigned int a, unsigned int b)`: shift-and-add product, the loop
`for(int i=0; i<32; i++)` unrolled over `0, ..., 31`. -/
def multu (a b : Nat) : Nat :=
  (List.range 32).foldl (multuStep a b) 0

/-- `int mult(int a, int b)`: signed product through `multu` on the magnitudes. -/
def mult (a b : Int) : Int :=
  let sign_a := a >>> 31
  let sign_b := b >>> 31
  let a := if sign_a ≠ 0 then wrap32 (~~~a + 1) else a
  let b := if sign_b ≠ 0 then wrap32 (~~~b + 1) else b
  let product := toI32 (multu (toU32 a) (toU32 b))
  if Int.xor sign_a sign_b ≠ 0 then wrap32 (~~~product + 1) else product

/-! ## `binary_search.c` -/

namespace BinarySearch

/-- `int binary_search(int *data, int item, int start, int end)`; one unit of fuel per call. -/
def binary_search : Nat → List Int → Int → Int → Int → Option Int
  | 0, _, _, _, _ => none
  | fuel + 1, data, item, start, end_ =>
    let mid := wrap32 (start + Int.tdiv (wrap32 (end_ - start)) 2)
    if start > end_ then some (-1)
    else
      match readAt data mid with
      | none => none
      | some v =>
        if v = item then some mid
        else if v > item then binary_search fuel data item start (wrap32 (mid - 1))
        else binary_search fuel data item (wrap32 (mid + 1)) end_

/-- `int search(int *data, int item, int count)`. -/
def search (fuel : Nat) (data : List Int) (item count : Int) : Option Int :=
  binary_search fuel data item 0 (wrap32 (count - 1))

/-- The inner loop of `sort`, `for(j = 0; j < count-i-1; j++)`, entered at `j`; one unit of
fuel per test of the loop condition. -/
def sortInner : Nat → List Int → Int → Int → Int → Option (List Int)
  | 0, _, _, _, _ => none
  | fuel + 1, data, count, i, j =>
    if j < wrap32 (wrap32 (count - i) - 1) then
      match readAt data (wrap32 (j + 1)), readAt data j with
      | some next, some cur =>
        if next < cur then
          let temp := cur
          match writeAt data j next with
          | none => none
          | some data1 =>
            match writeAt data1 (wrap32 (j + 1)) temp with
            | none => none
            | some data2 => sortInner fuel data2 count i (wrap32 (j + 1))
        else sortInner fuel data count i (wrap32 (j + 1))
      | _, _ => none
    else some data

/-- The outer loop of `sort`, `for(i = 0; i < count-1; i++)`, entered at `i`; the first
argument is the fuel handed to every run of the inner loop. -/
def sortOuter (innerFuel : Nat) : Nat → List Int → Int → Int → Option (List Int)
  | 0, _, _, _ => none
  | fuel + 1, data, count, i =>
    if i < wrap32 (count - 1) then
      match sortInner innerFuel data count i 0 with
      | none => none
      | some data1 => sortOuter innerFuel fuel data1 count (wrap32 (i + 1))
    else some data

/-- `int sort(int *data, int count)`: the array as the call leaves it (the function has no
`return` statement, and `main` ignores its value). -/
def sort (fuel : Nat) (data : List Int) (count : Int) : Option (List Int) :=
  sortOuter fuel fuel data count 0

/-- `int main(void)` of `binary_search.c`. -/
def main (fuel : Nat) : Option Int :=
  let n : List Int := [0, 6, 8, 4, 3, 9, 7, 5]
  match sort fuel n 8 with
  | none => none
  | some n1 => search fuel n1 8 8

/-- The array is non-decreasing on the indices `lo, ..., hi`. -/
def SortedOn (data : List Int) (lo hi : Int) : Prop :=
  ∀ i j : Nat, lo ≤ (i : Int) → i ≤ j → (j : Int) ≤ hi →
    ∀ x y, data[i]? = some x → data[j]? = some y → x ≤ y

/-- Every value of the first option is at most every value of the second: the order between
two array elements that may be out of bounds. -/
def OptLe (a b : Option Int) : Prop :=
  ∀ x y, a = some x → b = some y → x ≤ y

/-- The item is the value of the array at one of the indices `lo, ..., hi`. -/
def OccursOn (data : List Int) (item : Int) (lo hi : Int) : Prop :=
  ∃ k : Nat, lo ≤ (k : Int) ∧ (k : Int) ≤ hi ∧ data[k]? = some item

end BinarySearch

/-! ## `prime_number_counter.c` -/

namespace PrimeNumberCounter

/-- The first loop of `getRemainder`, `while (b <= a)`, on the variables `b` and `temp`; the
shift `x <<= 1` is the doubling of `x` reduced to 32 bits. -/
def getRemainderUp : Nat → Int → Int → Int → Option (Int × Int)
  | 0, _, _, _ => none
  | fuel + 1, a, b, temp =>
    if b ≤ a then getRemainderUp fuel a (wrap32 (b * 2)) (wrap32 (temp * 2))
    else some (b, temp)

/-- The second loop of `getRemainder`, `while (temp > 1)`, on the variables `a`, `b`, `temp`. -/
def getRemainderDown : Nat → Int → Int → Int → Option Int
  | 0, _, _, _ => none
  | fuel + 1, a, b, temp =>
    if temp > 1 then
      let b1 := b >>> 1
      let temp1 := temp >>> 1
      if a ≥ b1 then getRemainderDown fuel (wrap32 (a - b1)) b1 temp1
      else getRemainderDown fuel a b1 temp1
    else some a

/-- `int getRemainder(int a, int b)`. -/
def getRemainder (fuel : Nat) (a b : Int) : Option Int :=
  match getRemainderUp fuel a b 1 with
  | none => none
  | some (b1, temp) => getRemainderDown fuel a b1 temp

/-- The loop of `floorSqrt`, `while (result <= x)`, on the variables `i` and `result`. -/
def floorSqrtLoop : Nat → Int → Int → Int → Option Int
  | 0, _, _, _ => none
  | fuel + 1, x, i, result =>
    if result ≤ x then
      let i1 := wrap32 (i + 1)
      floorSqrtLoop fuel x i1 (mult i1 i1)
    else some (wrap32 (i - 1))

/-- `int floorSqrt(int x)`. -/
def floorSqrt (fuel : Nat) (x : Int) : Option Int :=
  if x = 0 ∨ x = 1 then some x else floorSqrtLoop fuel x 1 1

/-- The loop of `check_prime`, `for(int i=2; i<=sqrt; i++)`, entered at `i`; the first argument
is the fuel handed to every call of `getRemainder`. -/
def check_primeLoop (callFuel : Nat) : Nat → Int → Int → Int → Option Int
  | 0, _, _, _ => none
  | fuel + 1, a, sqrt, i =>
    if i ≤ sqrt then
      match getRemainder callFuel a i with
      | none => none
      | some remainder =>
        if remainder = 0 then some 0
        else check_primeLoop callFuel fuel a sqrt (wrap32 (i + 1))
    else some 1

/-- `int check_prime(int a)`. -/
def check_prime (fuel : Nat) (a : Int) : Option Int :=
  match floorSqrt fuel a with
  | none => none
  | some sqrt =>
    if a < 2 then some 0
    else if a = 2 ∨ a = 3 then some 1
    else check_primeLoop fuel fuel a sqrt 2

/-- The loop of `main`, `for(int i=lower_bound; i<=upper_bound; i++)`, entered at `i`. -/
def mainLoop (callFuel : Nat) : Nat → Int → Int → Int → Option Int
  | 0, _, _, _ => none
  | fuel + 1, upper_bound, primes, i =>
    if i ≤ upper_bound then
      match check_prime callFuel i with
      | none => none
      | some isPrime =>
        if isPrime ≠ 0 then mainLoop callFuel fuel upper_bound (wrap32 (primes + 1)) (wrap32 (i + 1))
        else mainLoop callFuel fuel upper_bound primes (wrap32 (i + 1))
    else some primes

/-- `int main(void)` of `prime_number_counter.c`. -/
def main (fuel : Nat) : Option Int :=
  let lower_bound : Int := 0
  let upper_bound : Int := 50
  mainLoop fuel fuel upper_bound 0 lower_bound

end PrimeNumberCounter

/-! ## `short_mandelbrot.c` -/

namespace ShortMandelbrot

def EXPECTED_CHECKSUM : Int := 0x0018ba60
def H_RES : Int := 8
def V_RES : Int := 8
def WHITE : Nat := 0
def BLACK : Nat := 1
def DELTA : Int := 0x00000400
def FOUR : Int := 0x00004000
/-- The constant `0xFFFFE04F` does not fit an `int`, so it is an `unsigned int`. -/
def X_START : Nat := 0xFFFFE04F
def Y_START : Int := 0x000011D0

/-- `struct complex_num`. -/
structure Complex_Num where
  re : Int
  im : Int
  deriving DecidableEq, Repr

/-- `complex_add(a, b, s)`: the value stored in `*s`. -/
def complex_add (a b : Complex_Num) : Complex_Num :=
  { re := wrap32 (a.re + b.re), im := wrap32 (a.im + b.im) }

/-- `complex_mult(a, b, p)`: the value stored in `*p`.  Both products are computed from `*a`
and `*b` before the first store to `*p`. -/
def complex_mult (a b : Complex_Num) : Complex_Num :=
  let reProduct32 := wrap32 (mult a.re b.re - mult a.im b.im)
  let imProduct32 := wrap32 (mult a.re b.im + mult a.im a.re)
  { re := reProduct32 >>> 12, im := imProduct32 >>> 12 }

/-- `complex_square(a, sq)`: the value stored in `*sq`. -/
def complex_square (a : Complex_Num) : Complex_Num :=
  complex_mult a a

/-- `mandelbrot_iter(Z, C)`: the value left in `*Z`. -/
def mandelbrot_iter (Z C : Complex_Num) : Complex_Num :=
  complex_add (complex_square Z) C

/-! The same four functions with their pointer arguments: the `Complex_Num` objects live in a
memory, a pointer is the address of one of them, and every store of the source is one update
of the memory, in the order of the source. -/

namespace InMemory

/-- The `Complex_Num` objects of the program, by address. -/
abbrev Memory := Nat → Complex_Num

/-- The store `p->re = v`. -/
def storeRe (m : Memory) (p : Nat) (v : Int) : Memory :=
  fun q => if q = p then { m q with re := v } else m q

/-- The store `p->im = v`. -/
def storeIm (m : Memory) (p : Nat) (v : Int) : Memory :=
  fun q => if q = p then { m q with im := v } else m q

/-- `void complex_add(Complex_Num *a, Complex_Num *b, Complex_Num *s)`: the second statement
reads `*a` and `*b` after the first one has stored to `s->re`. -/
def complex_add (m : Memory) (a b s : Nat) : Memory :=
  let m1 := storeRe m s (wrap32 ((m a).re + (m b).re))
  storeIm m1 s (wrap32 ((m1 a).im + (m1 b).im))

/-- `void complex_mult(Complex_Num *a, Complex_Num *b, Complex_Num *p)`. -/
def complex_mult (m : Memory) (a b p : Nat) : Memory :=
  let reProduct32 := wrap32 (mult (m a).re (m b).re - mult (m a).im (m b).im)
  let imProduct32 := wrap32 (mult (m a).re (m b).im + mult (m a).im (m a).re)
  let m1 := storeRe m p (reProduct32 >>> 12)
  storeIm m1 p (imProduct32 >>> 12)

/-- `void complex_square(Complex_Num *a, Complex_Num *sq)`. -/
def complex_square (m : Memory) (a sq : Nat) : Memory :=
  complex_mult m a a sq

/-- `void mandelbrot_iter(Complex_Num *Z, Complex_Num *C)`. -/
def mandelbrot_iter (m : Memory) (Z C : Nat) : Memory :=
  let m1 := complex_square m Z Z
  complex_add m1 Z C Z

end InMemory

/-- `int complex_magnitude(Complex_Num *a)`. -/
def complex_magnitude (a : Complex_Num) : Int :=
  let mag32 := wrap32 (mult a.re a.re + mult a.im a.im)
  mag32 >>> 12

/-- The local variables of `main` that the loops change. -/
structure MainState where
  pixel_mag : Nat
  color : Nat
  checksum : Nat
  Zn : Complex_Num
  C : Complex_Num
  deriving DecidableEq, Repr

/-- The loop `for(int k=0; k<max_iter; k++)` of `main`, entered at `k`. -/
def iterLoop (max_iter : Int) : Nat → Int → MainState → Option MainState
  | 0, _, _ => none
  | fuel + 1, k, st =>
    if k < max_iter then
      let Zn := mandelbrot_iter st.Zn st.C
      let pixel_mag := toU32 (complex_magnitude Zn)
      let checksum := (st.checksum + pixel_mag) % 2 ^ 32
      if pixel_mag > toU32 FOUR then
        some { st with Zn := Zn, pixel_mag := pixel_mag, checksum := checksum, color := WHITE }
      else
        iterLoop max_iter fuel (wrap32 (k + 1))
          { st with Zn := Zn, pixel_mag := pixel_mag, checksum := checksum }
    else some st

/-- The loop `for( int j=0; j<H_RES; j++)` of `main`, entered at `j`; the first argument is the
fuel handed to every run of the loop over `k`. -/
def columnLoop (callFuel : Nat) (max_iter : Int) : Nat → Int → MainState → Option MainState
  | 0, _, _ => none
  | fuel + 1, j, st =>
    if j < H_RES then
      match iterLoop max_iter callFuel 0
          { st with color := BLACK, Zn := { re := 0, im := 0 } } with
      | none => none
      | some st1 =>
        columnLoop callFuel max_iter fuel (wrap32 (j + 1))
          { st1 with C := { st1.C with re := wrap32 (st1.C.re + DELTA) } }
    else some st

/-- The loop `for( int i=0; i<V_RES; i++ )` of `main`, entered at `i`; the first argument is
the fuel handed to every run of the inner loops. -/
def rowLoop (callFuel : Nat) (max_iter : Int) : Nat → Int → MainState → Option MainState
  | 0, _, _ => none
  | fuel + 1, i, st =>
    if i < V_RES then
      match columnLoop callFuel max_iter callFuel 0
          { st with C := { st.C with re := toI32 X_START } } with
      | none => none
      | some st1 =>
        rowLoop callFuel max_iter fuel (wrap32 (i + 1))
          { st1 with C := { st1.C with im := wrap32 (st1.C.im - DELTA) } }
    else some st

/-- The checksum `main` has accumulated when it reaches the final comparison.  The variables
`pixel_mag`, `color`, `Zn` and `C.re` are written before they are first read, so the value they
start from does not matter; it is taken to be 0. -/
def mainChecksum (fuel : Nat) : Option Nat :=
  let max_iter : Int := 3
  let st : MainState :=
    { pixel_mag := 0, color := 0, checksum := 0, Zn := { re := 0, im := 0 },
      C := { re := 0, im := Y_START } }
  match rowLoop fuel max_iter fuel 0 st with
  | none => none
  | some st1 => some st1.checksum

/-- `int main(void)` of `short_mandelbrot.c` (without `DESKTOP`). -/
def main (fuel : Nat) : Option Int :=
  match mainChecksum fuel with
  | none => none
  | some checksum => if checksum = toU32 EXPECTED_CHECKSUM then some 2 else some 1

end ShortMandelbrot

/-! # Theorems -/

/-! ## Encodings of `params.h` -/

/-- C1: the stable coherence states are encoded INVALID = 0b00, EXCLUSIVE = 0b01,
MODIFIED = 0b10, SHARED = 0b11; the codes are pairwise distinct, fit in 2 bits and cover
every 2-bit value, and encoding and decoding are inverse to each other. -/
theorem stable_state_encoding_bijective :
    encodeState .INVALID = 0b00 ∧ encodeState .EXCLUSIVE = 0b01 ∧
    encodeState .MODIFIED = 0b10 ∧ encodeState .SHARED = 0b11 ∧
    Function.Injective encodeState ∧
    (∀ s, encodeState s < 4) ∧
    (∀ s, decodeState (encodeState s) = some s) ∧
    (∀ v : Fin 4, ∃ s, decodeState v.val = some s ∧ encodeState s = v.val) := by
  refine ⟨rfl, rfl, rfl, rfl, ?_, ?_, ?_, ?_⟩
  · intro a b h
    cases a <;> cases b <;> first | rfl | exact absurd h (by decide)
  · intro s; cases s <;> decide
  · intro s; cases s <;> rfl
  · decide

/-- C2: the NoC opcodes, in the order in which the specification lists them, have the codes
0, 1, ..., 15; the codes fit in 4 bits, are pairwise distinct, every 4-bit value is the code of
exactly one NoC opcode, and encoding and decoding are inverse to each other. -/
theorem noc_opcode_encoding_bijective :
    nocSpecOrder.map encodeNoC = List.range 16 ∧
    (∀ op, op ∈ nocSpecOrder) ∧
    (∀ op, encodeNoC op < 16) ∧
    Function.Injective encodeNoC ∧
    (∀ op, decodeNoC (encodeNoC op) = some op) ∧
    (∀ v : Fin 16, ∃ op, decodeNoC v.val = some op ∧ encodeNoC op = v.val ∧
      ∀ op2, encodeNoC op2 = v.val → op2 = op) := by
  have hdec : ∀ op, decodeNoC (encodeNoC op) = some op := by
    intro op; cases op <;> rfl
  have hinj : Function.Injective encodeNoC := by
    intro a b h
    have h2 := hdec a
    rw [h, hdec b] at h2
    exact (Option.some.inj h2).symm
  refine ⟨rfl, ?_, ?_, hinj, hdec, ?_⟩
  · intro op; cases op <;> decide
  · intro op; cases op <;> decide
  · intro v
    have h : ∃ op, decodeNoC v.val = some op ∧ encodeNoC op = v.val := by
      revert v; decide
    obtain ⟨op, h1, h2⟩ := h
    exact ⟨op, h1, h2, fun op2 h3 => hinj (h3.trans h2.symm)⟩

/-- C3: the bus opcodes, in the order in which the specification lists them, have the codes
0, 1, ..., 14; the codes fit in 4 bits, are pairwise distinct, decoding undoes encoding, and 15
is the only 4-bit value that decodes to no bus opcode. -/
theorem bus_opcode_encoding :
    busSpecOrder.map encodeBus = List.range 15 ∧
    (∀ op, op ∈ busSpecOrder) ∧
    (∀ op, encodeBus op < 16) ∧
    Function.Injective encodeBus ∧
    (∀ op, decodeBus (encodeBus op) = some op) ∧
    decodeBus 15 = none ∧
    (∀ op, encodeBus op ≠ 15) ∧
    (∀ v : Fin 15, ∃ op, decodeBus v.val = some op ∧ encodeBus op = v.val) := by
  have hdec : ∀ op, decodeBus (encodeBus op) = some op := by
    intro op; cases op <;> rfl
  have hinj : Function.Injective encodeBus := by
    intro a b h
    have h2 := hdec a
    rw [h, hdec b] at h2
    exact (Option.some.inj h2).symm
  refine ⟨rfl, ?_, ?_, hinj, hdec, rfl, ?_, ?_⟩
  · intro op; cases op <;> decide
  · intro op; cases op <;> decide
  · intro op; cases op <;> decide
  · decide

/-- C4, as stated, fails: the bare value 15 is the code of the NoC opcode NackC and of no bus
opcode, so it does identify the channel it belongs to. -/
theorem bare_value_15_identifies_noc :
    ¬ (∀ v : Fin 16, ¬ ((decodeNoC v.val).isSome ∧ decodeBus v.val = none) ∧
        ¬ ((decodeBus v.val).isSome ∧ decodeNoC v.val = none)) := by
  decide

/-- C4, amended: 4 is the code of both PutS (NoC) and FLUSH (bus); every bus opcode shares its
code with a NoC opcode; every value 0..14 is a code in both spaces, so it does not identify its
channel; 15 is a code on the NoC only. -/
theorem opcode_spaces_overlap :
    encodeNoC .PutS = 4 ∧ encodeBus .FLUSH = 4 ∧
    (∀ b, ∃ n, encodeNoC n = encodeBus b) ∧
    (∀ v : Fin 15, (decodeNoC v.val).isSome ∧ (decodeBus v.val).isSome) ∧
    decodeNoC 15 = some .NackC ∧ decodeBus 15 = none := by
  refine ⟨rfl, rfl, ?_, by decide, rfl, rfl⟩
  intro b
  cases b
  · exact ⟨.NoMsg, rfl⟩
  · exact ⟨.GetS, rfl⟩
  · exact ⟨.GetM, rfl⟩
  · exact ⟨.PutM, rfl⟩
  · exact ⟨.PutS, rfl⟩
  · exact ⟨.PutE, rfl⟩
  · exact ⟨.InvAck, rfl⟩
  · exact ⟨.NackB, rfl⟩
  · exact ⟨.NackD, rfl⟩
  · exact ⟨.RespPutM, rfl⟩
  · exact ⟨.FwdGetS, rfl⟩
  · exact ⟨.Inv, rfl⟩
  · exact ⟨.PutAck, rfl⟩
  · exact ⟨.Data, rfl⟩
  · exact ⟨.DataS, rfl⟩

/-! ## Machine arithmetic -/

theorem wrap32_eq_self {x : Int} (h0 : -2 ^ 31 ≤ x) (h1 : x < 2 ^ 31) : wrap32 x = x := by
  unfold wrap32
  omega

/-! ## `binary_search.c`: the search -/

namespace BinarySearch

theorem readAt_natCast (data : List Int) (k : Nat) : readAt data (k : Int) = data[k]? := by
  simp [readAt]

theorem SortedOn.mono {data : List Int} {lo hi lo2 hi2 : Int} (h : SortedOn data lo hi)
    (h1 : lo ≤ lo2) (h2 : hi2 ≤ hi) : SortedOn data lo2 hi2 :=
  fun i j hi1 hij hj x y hx hy => h i j (le_trans h1 hi1) hij (le_trans hj h2) x y hx hy

/-- The result the specification asks of a search for `item` on the indices `lo, ..., hi`. -/
theorem binary_search_spec (fuel : Nat) : ∀ (data : List Int) (item start end_ : Int),
    0 ≤ start → end_ < data.length → data.length < 2 ^ 31 → SortedOn data start end_ →
    (end_ - start + 1).toNat < fuel →
    ∃ r, binary_search fuel data item start end_ = some r ∧
      (OccursOn data item start end_ → start ≤ r ∧ r ≤ end_ ∧ readAt data r = some item) ∧
      (¬ OccursOn data item start end_ → r = -1) := by
  induction fuel with
  | zero => intro _ _ _ _ _ _ _ _ h; omega
  | succ fuel ih =>
    intro data item start end_ h0 h1 hlen hs hf
    unfold binary_search
    by_cases hse : start > end_
    · refine ⟨-1, by simp [hse], ?_, fun _ => rfl⟩
      rintro ⟨k, hk1, hk2, _⟩
      omega
    · obtain ⟨m, hmid⟩ : ∃ m : Nat, (m : Int) = start + (end_ - start) / 2 :=
        ⟨(start + (end_ - start) / 2).toNat, by omega⟩
      have hml : m < data.length := by omega
      have hsm : start ≤ (m : Int) := by omega
      have hme : (m : Int) ≤ end_ := by omega
      have e1 : (m : Int) - 1 < data.length := by omega
      have e2 : ((m : Int) - 1 - start + 1).toNat < fuel := by omega
      have e3 : (m : Int) - 1 ≤ end_ := by omega
      have f1 : (0 : Int) ≤ (m : Int) + 1 := by omega
      have f2 : (end_ - ((m : Int) + 1) + 1).toNat < fuel := by omega
      have f3 : start ≤ (m : Int) + 1 := by omega
      have g1 : ∀ k : Nat, ¬ (k : Int) ≤ (m : Int) - 1 → m ≤ k := fun k hk => by omega
      have g2 : ∀ k : Nat, ¬ (m : Int) + 1 ≤ (k : Int) → k ≤ m := fun k hk => by omega
      have b1 : -2 ^ 31 ≤ end_ - start ∧ end_ - start < 2 ^ 31 := by omega
      have b2 : -2 ^ 31 ≤ (m : Int) ∧ (m : Int) < 2 ^ 31 := by omega
      have b3 : -2 ^ 31 ≤ (m : Int) - 1 ∧ (m : Int) - 1 < 2 ^ 31 := by omega
      have b4 : -2 ^ 31 ≤ (m : Int) + 1 ∧ (m : Int) + 1 < 2 ^ 31 := by omega
      have b5 : 0 ≤ end_ - start := by omega
      have hmget : data[m]? = some data[m] := List.getElem?_eq_getElem hml
      have hwm : wrap32 ((m : Int) - 1) = (m : Int) - 1 := wrap32_eq_self b3.1 b3.2
      have hwp : wrap32 ((m : Int) + 1) = (m : Int) + 1 := wrap32_eq_self b4.1 b4.2
      have hmid2 : wrap32 (start + Int.tdiv (wrap32 (end_ - start)) 2) = (m : Int) := by
        rw [wrap32_eq_self b1.1 b1.2, Int.tdiv_eq_ediv b5 (by decide), ← hmid]
        exact wrap32_eq_self b2.1 b2.2
      simp only [hse, if_false, hmid2]
      rw [readAt_natCast, hmget]
      simp only
      by_cases hv : data[m] = item
      · refine ⟨m, by rw [if_pos hv], fun _ => ⟨hsm, hme, ?_⟩, fun hno => ?_⟩
        · rw [readAt_natCast, hmget, hv]
        · exact absurd ⟨m, hsm, hme, by rw [hmget, hv]⟩ hno
      · by_cases hgt : data[m] > item
        · rw [if_neg hv, if_pos hgt, hwm]
          obtain ⟨r, hr, hr1, hr2⟩ := ih data item start ((m : Int) - 1) h0 e1 hlen
            (hs.mono le_rfl e3) e2
          have hiff : OccursOn data item start end_ → OccursOn data item start ((m : Int) - 1) := by
            rintro ⟨k, hk1, hk2, hk3⟩
            refine ⟨k, hk1, ?_, hk3⟩
            by_contra hcon
            exact absurd (hs m k hsm (g1 k hcon) hk2 (data[m]) item hmget hk3) (not_le.mpr hgt)
          refine ⟨r, hr, fun ho => ?_, fun hno => hr2 fun ho => hno ?_⟩
          · obtain ⟨a, b, c⟩ := hr1 (hiff ho)
            exact ⟨a, le_trans b e3, c⟩
          · obtain ⟨k, hk1, hk2, hk3⟩ := ho
            exact ⟨k, hk1, le_trans hk2 e3, hk3⟩
        · rw [if_neg hv, if_neg hgt, hwp]
          obtain ⟨r, hr, hr1, hr2⟩ := ih data item ((m : Int) + 1) end_ f1 h1 hlen
            (hs.mono f3 le_rfl) f2
          have hiff : OccursOn data item start end_ → OccursOn data item ((m : Int) + 1) end_ := by
            rintro ⟨k, hk1, hk2, hk3⟩
            refine ⟨k, ?_, hk2, hk3⟩
            by_contra hcon
            exact hv (le_antisymm (not_lt.mp hgt)
              (hs k m hk1 (g2 k hcon) hme item (data[m]) hk3 hmget))
          refine ⟨r, hr, fun ho => ?_, fun hno => hr2 fun ho => hno ?_⟩
          · obtain ⟨a, b, c⟩ := hr1 (hiff ho)
            exact ⟨le_trans f3 a, b, c⟩
          · obtain ⟨k, hk1, hk2, hk3⟩ := ho
            exact ⟨k, le_trans f3 hk1, hk2, hk3⟩


theorem binary_search_fuel_succ (fuel : Nat) : ∀ (data : List Int) (item start end_ r : Int),
    binary_search fuel data item start end_ = some r →
    binary_search (fuel + 1) data item start end_ = some r := by
  induction fuel with
  | zero => intro _ _ _ _ _ h; simp [binary_search] at h
  | succ n ih =>
    intro data item start end_ r h
    unfold binary_search at h ⊢
    simp only at h ⊢
    split at h
    · rename_i hc; rw [if_pos hc]; exact h
    · rename_i hc
      rw [if_neg hc]
      split at h
      · exact absurd h (by simp)
      · rename_i v hv
        split at h
        · rename_i h1; rw [if_pos h1]; exact h
        · rename_i h1
          rw [if_neg h1]
          split at h
          · rename_i h2; rw [if_pos h2]; exact ih _ _ _ _ _ h
          · rename_i h2; rw [if_neg h2]; exact ih _ _ _ _ _ h

theorem binary_search_fuel_mono {fuel fuel2 : Nat} (hle : fuel ≤ fuel2) {data : List Int}
    {item start end_ r : Int} (h : binary_search fuel data item start end_ = some r) :
    binary_search fuel2 data item start end_ = some r := by
  induction hle with
  | refl => exact h
  | step _ ih => exact binary_search_fuel_succ _ _ _ _ _ _ ih


theorem sortInner_fuel_succ (fuel : Nat) : ∀ (data : List Int) (count i j : Int) (r : List Int),
    sortInner fuel data count i j = some r → sortInner (fuel + 1) data count i j = some r := by
  induction fuel with
  | zero => intro _ _ _ _ _ h; simp [sortInner] at h
  | succ n ih =>
    intro data count i j r h
    unfold sortInner at h ⊢
    split at h
    · rename_i hc
      rw [if_pos hc]
      split at h
      · split at h
        · rename_i hlt
          rw [if_pos hlt]
          simp only at h ⊢
          split at h
          · exact absurd h (by simp)
          · split at h
            · exact absurd h (by simp)
            · exact ih _ _ _ _ _ h
        · rename_i hlt
          rw [if_neg hlt]
          exact ih _ _ _ _ _ h
      · exact absurd h (by simp)
    · rename_i hc
      rw [if_neg hc]
      exact h

theorem sortInner_fuel_mono {fuel fuel2 : Nat} (hle : fuel ≤ fuel2) {data : List Int}
    {count i j : Int} {r : List Int} (h : sortInner fuel data count i j = some r) :
    sortInner fuel2 data count i j = some r := by
  induction hle with
  | refl => exact h
  | step _ ih => exact sortInner_fuel_succ _ _ _ _ _ _ ih

theorem sortOuter_fuel_mono {inner inner2 : Nat} (hin : inner ≤ inner2) (fuel : Nat) :
    ∀ (fuel2 : Nat), fuel ≤ fuel2 → ∀ (data : List Int) (count i : Int) (r : List Int),
    sortOuter inner fuel data count i = some r → sortOuter inner2 fuel2 data count i = some r := by
  induction fuel with
  | zero => intro _ _ _ _ _ _ h; simp [sortOuter] at h
  | succ n ih =>
    intro fuel2 hle data count i r h
    obtain ⟨m, rfl⟩ : ∃ m, fuel2 = m + 1 := ⟨fuel2 - 1, by omega⟩
    unfold sortOuter at h ⊢
    split at h
    · rename_i hc
      rw [if_pos hc]
      split at h
      · exact absurd h (by simp)
      · rename_i d1 hd1
        rw [sortInner_fuel_mono hin hd1]
        exact ih m (by omega) _ _ _ _ h
    · rename_i hc
      rw [if_neg hc]
      exact h

theorem sort_fuel_mono {fuel fuel2 : Nat} (hle : fuel ≤ fuel2) {data : List Int} {count : Int}
    {r : List Int} (h : sort fuel data count = some r) : sort fuel2 data count = some r :=
  sortOuter_fuel_mono hle fuel fuel2 hle _ _ _ _ h

theorem binary_search_main_fuel_mono {fuel fuel2 : Nat} (hle : fuel ≤ fuel2) {r : Int}
    (h : main fuel = some r) : main fuel2 = some r := by
  unfold main at h ⊢
  simp only at h ⊢
  split at h
  · exact absurd h (by simp)
  · rename_i n1 hn1
    rw [sort_fuel_mono hle hn1]
    exact binary_search_fuel_mono hle h

set_option maxRecDepth 100000 in
theorem binary_search_main_nine : main 9 = some 6 := by decide!


theorem sortedOn_example : SortedOn [0, 3, 4, 5, 6, 7, 8, 9] 0 7 := by
  intro i j _ hij hj x y hx hy
  have hj2 : j < 8 := by omega
  interval_cases j <;> interval_cases i <;> simp at hx hy <;> omega

/-- C6: on an array that is non-decreasing on the indices `start, ..., end_` (within the array,
whose length fits an `int`), `binary_search` returns with enough fuel; the result is an index
in the range that holds the item when the item occurs there, and -1 when it does not.  `search`
does this on the indices `0, ..., count - 1`, and `main` returns 6: the index of 8 in the
sorted array. -/
theorem binary_search_correct (fuel : Nat) (data : List Int) (item start end_ count : Int)
    (hlen : data.length < 2 ^ 31) :
    (0 ≤ start → end_ < data.length → SortedOn data start end_ →
      (end_ - start + 1).toNat < fuel →
      ∃ r, binary_search fuel data item start end_ = some r ∧
        (OccursOn data item start end_ → start ≤ r ∧ r ≤ end_ ∧ readAt data r = some item) ∧
        (¬ OccursOn data item start end_ → r = -1)) ∧
    (0 ≤ count → count ≤ data.length → SortedOn data 0 (count - 1) → count.toNat < fuel →
      ∃ r, search fuel data item count = some r ∧
        (OccursOn data item 0 (count - 1) → 0 ≤ r ∧ r < count ∧ readAt data r = some item) ∧
        (¬ OccursOn data item 0 (count - 1) → r = -1) ∧
        (count = 0 → r = -1)) ∧
    (9 ≤ fuel → main fuel = some 6) := by
  refine ⟨fun h0 h1 hs hf => binary_search_spec fuel data item start end_ h0 h1 hlen hs hf,
    fun h0 h1 hs hf => ?_, fun h9 => binary_search_main_fuel_mono h9 binary_search_main_nine⟩
  have a1 : count - 1 < data.length := by omega
  have a2 : (count - 1 - 0 + 1).toNat < fuel := by
    have : count - 1 - 0 + 1 = count := by ring
    rw [this]; exact hf
  have a3 : -2 ^ 31 ≤ count - 1 ∧ count - 1 < 2 ^ 31 := by omega
  obtain ⟨r, hr, hr1, hr2⟩ := binary_search_spec fuel data item 0 (count - 1) le_rfl a1 hlen hs a2
  refine ⟨r, ?_, fun ho => ?_, hr2, fun hc => hr2 ?_⟩
  · unfold search
    rw [wrap32_eq_self a3.1 a3.2]
    exact hr
  · obtain ⟨b1, b2, b3⟩ := hr1 ho
    exact ⟨b1, by omega, b3⟩
  · rintro ⟨k, hk1, hk2, _⟩
    omega

/-- C6, at a concrete input: the search for 8 among the 8 elements of the sorted array of
`main`. -/
theorem binary_search_correct_witness :
    ∃ r, search 9 [0, 3, 4, 5, 6, 7, 8, 9] 8 8 = some r ∧
      (OccursOn [0, 3, 4, 5, 6, 7, 8, 9] 8 0 (8 - 1) →
        0 ≤ r ∧ r < 8 ∧ readAt [0, 3, 4, 5, 6, 7, 8, 9] r = some 8) ∧
      (¬ OccursOn [0, 3, 4, 5, 6, 7, 8, 9] 8 0 (8 - 1) → r = -1) ∧
      ((8 : Int) = 0 → r = -1) :=
  (binary_search_correct 9 [0, 3, 4, 5, 6, 7, 8, 9] 8 0 7 8 (by decide)).2.1
    (by decide) (by decide) sortedOn_example (by decide)

end BinarySearch

/-! ## `short_mandelbrot.c`: the checksum of `main` -/

namespace ShortMandelbrot

theorem iterLoop_fuel_succ (max_iter : Int) (fuel : Nat) : ∀ (k : Int) (st r : MainState),
    iterLoop max_iter fuel k st = some r → iterLoop max_iter (fuel + 1) k st = some r := by
  induction fuel with
  | zero => intro _ _ _ h; simp [iterLoop] at h
  | succ n ih =>
    intro k st r h
    unfold iterLoop at h ⊢
    split at h
    · rename_i hc
      rw [if_pos hc]
      simp only at h ⊢
      split at h
      · rename_i h1; rw [if_pos h1]; exact h
      · rename_i h1; rw [if_neg h1]; exact ih _ _ _ h
    · rename_i hc
      rw [if_neg hc]
      exact h

theorem iterLoop_fuel_mono {max_iter : Int} {fuel fuel2 : Nat} (hle : fuel ≤ fuel2) {k : Int}
    {st r : MainState} (h : iterLoop max_iter fuel k st = some r) :
    iterLoop max_iter fuel2 k st = some r := by
  induction hle with
  | refl => exact h
  | step _ ih => exact iterLoop_fuel_succ _ _ _ _ _ ih

theorem columnLoop_fuel_mono {max_iter : Int} {call call2 : Nat} (hc : call ≤ call2)
    (fuel : Nat) : ∀ (fuel2 : Nat), fuel ≤ fuel2 → ∀ (j : Int) (st r : MainState),
    columnLoop call max_iter fuel j st = some r →
    columnLoop call2 max_iter fuel2 j st = some r := by
  induction fuel with
  | zero => intro _ _ _ _ _ h; simp [columnLoop] at h
  | succ n ih =>
    intro fuel2 hle j st r h
    obtain ⟨m, rfl⟩ : ∃ m, fuel2 = m + 1 := ⟨fuel2 - 1, by omega⟩
    unfold columnLoop at h ⊢
    split at h
    · rename_i hj
      rw [if_pos hj]
      split at h
      · exact absurd h (by simp)
      · rename_i st1 hst1
        rw [iterLoop_fuel_mono hc hst1]
        exact ih m (by omega) _ _ _ h
    · rename_i hj
      rw [if_neg hj]
      exact h

theorem rowLoop_fuel_mono {max_iter : Int} {call call2 : Nat} (hc : call ≤ call2)
    (fuel : Nat) : ∀ (fuel2 : Nat), fuel ≤ fuel2 → ∀ (i : Int) (st r : MainState),
    rowLoop call max_iter fuel i st = some r →
    rowLoop call2 max_iter fuel2 i st = some r := by
  induction fuel with
  | zero => intro _ _ _ _ _ h; simp [rowLoop] at h
  | succ n ih =>
    intro fuel2 hle i st r h
    obtain ⟨m, rfl⟩ : ∃ m, fuel2 = m + 1 := ⟨fuel2 - 1, by omega⟩
    unfold rowLoop at h ⊢
    split at h
    · rename_i hi
      rw [if_pos hi]
      split at h
      · exact absurd h (by simp)
      · rename_i st1 hst1
        rw [columnLoop_fuel_mono hc call call2 hc _ _ _ hst1]
        exact ih m (by omega) _ _ _ h
    · rename_i hi
      rw [if_neg hi]
      exact h

theorem mainChecksum_fuel_mono {fuel fuel2 : Nat} (hle : fuel ≤ fuel2) {c : Nat}
    (h : mainChecksum fuel = some c) : mainChecksum fuel2 = some c := by
  unfold mainChecksum at h ⊢
  simp only at h ⊢
  split at h
  · exact absurd h (by simp)
  · rename_i st1 hst1
    rw [rowLoop_fuel_mono hle fuel fuel2 hle _ _ _ hst1]
    exact h

set_option maxRecDepth 100000 in
theorem mainChecksum_nine : mainChecksum 9 = some 0x0018ba60 := by decide!

/-- C10: with enough fuel (9 units for every loop), `main` of `short_mandelbrot.c` reaches its
final comparison with the checksum 0x0018ba60, which is `EXPECTED_CHECKSUM`, and so returns 2
and not 1; the constants are those of the source. -/
theorem mandelbrot_checksum_passes (fuel : Nat) (hfuel : 9 ≤ fuel) :
    H_RES = 8 ∧ V_RES = 8 ∧ X_START = 0xFFFFE04F ∧ Y_START = 0x000011D0 ∧ DELTA = 0x400 ∧
    FOUR = 0x4000 ∧ EXPECTED_CHECKSUM = 0x0018ba60 ∧
    mainChecksum fuel = some (toU32 EXPECTED_CHECKSUM) ∧ main fuel = some 2 ∧
    main fuel ≠ some 1 := by
  refine ⟨rfl, rfl, rfl, rfl, rfl, rfl, rfl, ?_⟩
  have hc : mainChecksum fuel = some (toU32 EXPECTED_CHECKSUM) :=
    mainChecksum_fuel_mono hfuel mainChecksum_nine
  have hm : main fuel = some 2 := by
    unfold main
    rw [hc]
    simp
  exact ⟨hc, hm, by rw [hm]; decide⟩

/-- C10, with 9 units of fuel. -/
theorem mandelbrot_checksum_passes_witness :
    H_RES = 8 ∧ V_RES = 8 ∧ X_START = 0xFFFFE04F ∧ Y_START = 0x000011D0 ∧ DELTA = 0x400 ∧
    FOUR = 0x4000 ∧ EXPECTED_CHECKSUM = 0x0018ba60 ∧
    mainChecksum 9 = some (toU32 EXPECTED_CHECKSUM) ∧ main 9 = some 2 ∧ main 9 ≠ some 1 :=
  mandelbrot_checksum_passes 9 (by decide)

end ShortMandelbrot

/-! ## `prime_number_counter.c`: the result of `main` -/

namespace PrimeNumberCounter

theorem getRemainderUp_fuel_succ (fuel : Nat) : ∀ (a b temp : Int) (r : Int × Int),
    getRemainderUp fuel a b temp = some r → getRemainderUp (fuel + 1) a b temp = some r := by
  induction fuel with
  | zero => intro _ _ _ _ h; simp [getRemainderUp] at h
  | succ n ih =>
    intro a b temp r h
    unfold getRemainderUp at h ⊢
    split at h
    · rename_i hc; rw [if_pos hc]; exact ih _ _ _ _ h
    · rename_i hc; rw [if_neg hc]; exact h

theorem getRemainderUp_fuel_mono {fuel fuel2 : Nat} (hle : fuel ≤ fuel2) {a b temp : Int}
    {r : Int × Int} (h : getRemainderUp fuel a b temp = some r) :
    getRemainderUp fuel2 a b temp = some r := by
  induction hle with
  | refl => exact h
  | step _ ih => exact getRemainderUp_fuel_succ _ _ _ _ _ ih

theorem getRemainderDown_fuel_succ (fuel : Nat) : ∀ (a b temp r : Int),
    getRemainderDown fuel a b temp = some r → getRemainderDown (fuel + 1) a b temp = some r := by
  induction fuel with
  | zero => intro _ _ _ _ h; simp [getRemainderDown] at h
  | succ n ih =>
    intro a b temp r h
    unfold getRemainderDown at h ⊢
    split at h
    · rename_i hc
      rw [if_pos hc]
      simp only at h ⊢
      split at h
      · rename_i h1; rw [if_pos h1]; exact ih _ _ _ _ h
      · rename_i h1; rw [if_neg h1]; exact ih _ _ _ _ h
    · rename_i hc; rw [if_neg hc]; exact h

theorem getRemainderDown_fuel_mono {fuel fuel2 : Nat} (hle : fuel ≤ fuel2) {a b temp r : Int}
    (h : getRemainderDown fuel a b temp = some r) :
    getRemainderDown fuel2 a b temp = some r := by
  induction hle with
  | refl => exact h
  | step _ ih => exact getRemainderDown_fuel_succ _ _ _ _ _ ih

theorem getRemainder_fuel_mono {fuel fuel2 : Nat} (hle : fuel ≤ fuel2) {a b r : Int}
    (h : getRemainder fuel a b = some r) : getRemainder fuel2 a b = some r := by
  unfold getRemainder at h ⊢
  split at h
  · exact absurd h (by simp)
  · rename_i b1 temp hup
    rw [getRemainderUp_fuel_mono hle hup]
    exact getRemainderDown_fuel_mono hle h

theorem floorSqrtLoop_fuel_succ (fuel : Nat) : ∀ (x i result r : Int),
    floorSqrtLoop fuel x i result = some r → floorSqrtLoop (fuel + 1) x i result = some r := by
  induction fuel with
  | zero => intro _ _ _ _ h; simp [floorSqrtLoop] at h
  | succ n ih =>
    intro x i result r h
    unfold floorSqrtLoop at h ⊢
    split at h
    · rename_i hc; rw [if_pos hc]; exact ih _ _ _ _ h
    · rename_i hc; rw [if_neg hc]; exact h

theorem floorSqrtLoop_fuel_mono {fuel fuel2 : Nat} (hle : fuel ≤ fuel2) {x i result r : Int}
    (h : floorSqrtLoop fuel x i result = some r) : floorSqrtLoop fuel2 x i result = some r := by
  induction hle with
  | refl => exact h
  | step _ ih => exact floorSqrtLoop_fuel_succ _ _ _ _ _ ih

theorem floorSqrt_fuel_mono {fuel fuel2 : Nat} (hle : fuel ≤ fuel2) {x r : Int}
    (h : floorSqrt fuel x = some r) : floorSqrt fuel2 x = some r := by
  unfold floorSqrt at h ⊢
  split at h
  · rename_i hc; rw [if_pos hc]; exact h
  · rename_i hc; rw [if_neg hc]; exact floorSqrtLoop_fuel_mono hle h

theorem check_primeLoop_fuel_mono {call call2 : Nat} (hc : call ≤ call2) (fuel : Nat) :
    ∀ (fuel2 : Nat), fuel ≤ fuel2 → ∀ (a sqrt i r : Int),
    check_primeLoop call fuel a sqrt i = some r →
    check_primeLoop call2 fuel2 a sqrt i = some r := by
  induction fuel with
  | zero => intro _ _ _ _ _ _ h; simp [check_primeLoop] at h
  | succ n ih =>
    intro fuel2 hle a sqrt i r h
    obtain ⟨m, rfl⟩ : ∃ m, fuel2 = m + 1 := ⟨fuel2 - 1, by omega⟩
    unfold check_primeLoop at h ⊢
    split at h
    · rename_i hi
      rw [if_pos hi]
      split at h
      · exact absurd h (by simp)
      · rename_i rem hrem
        rw [getRemainder_fuel_mono hc hrem]
        simp only at h ⊢
        split at h
        · rename_i h0; rw [if_pos h0]; exact h
        · rename_i h0; rw [if_neg h0]; exact ih m (by omega) _ _ _ _ h
    · rename_i hi; rw [if_neg hi]; exact h

theorem check_prime_fuel_mono {fuel fuel2 : Nat} (hle : fuel ≤ fuel2) {a r : Int}
    (h : check_prime fuel a = some r) : check_prime fuel2 a = some r := by
  unfold check_prime at h ⊢
  split at h
  · exact absurd h (by simp)
  · rename_i sqrt hsqrt
    rw [floorSqrt_fuel_mono hle hsqrt]
    simp only at h ⊢
    split at h
    · rename_i h1; rw [if_pos h1]; exact h
    · rename_i h1
      rw [if_neg h1]
      split at h
      · rename_i h2; rw [if_pos h2]; exact h
      · rename_i h2
        rw [if_neg h2]
        exact check_primeLoop_fuel_mono hle fuel fuel2 hle _ _ _ _ h

theorem mainLoop_fuel_mono {call call2 : Nat} (hc : call ≤ call2) (fuel : Nat) :
    ∀ (fuel2 : Nat), fuel ≤ fuel2 → ∀ (upper_bound primes i r : Int),
    mainLoop call fuel upper_bound primes i = some r →
    mainLoop call2 fuel2 upper_bound primes i = some r := by
  induction fuel with
  | zero => intro _ _ _ _ _ _ h; simp [mainLoop] at h
  | succ n ih =>
    intro fuel2 hle upper_bound primes i r h
    obtain ⟨m, rfl⟩ : ∃ m, fuel2 = m + 1 := ⟨fuel2 - 1, by omega⟩
    unfold mainLoop at h ⊢
    split at h
    · rename_i hi
      rw [if_pos hi]
      split at h
      · exact absurd h (by simp)
      · rename_i isPrime hp
        rw [check_prime_fuel_mono hc hp]
        simp only at h ⊢
        split at h
        · rename_i h0; rw [if_pos h0]; exact ih m (by omega) _ _ _ _ h
        · rename_i h0; rw [if_neg h0]; exact ih m (by omega) _ _ _ _ h
    · rename_i hi; rw [if_neg hi]; exact h

theorem prime_counter_main_fuel_mono {fuel fuel2 : Nat} (hle : fuel ≤ fuel2) {r : Int}
    (h : main fuel = some r) : main fuel2 = some r :=
  mainLoop_fuel_mono hle fuel fuel2 hle _ _ _ _ h


set_option maxRecDepth 100000 in
theorem main_fifty_two : main 52 = some 15 := by decide!

set_option maxRecDepth 100000 in
theorem check_prime_upto_fifty :
    ∀ i : Fin 51, check_prime 52 (i.val : Int) = some (if Nat.Prime i.val then 1 else 0) := by
  decide!

theorem primes_upto_fifty : (List.range 51).countP (fun n => decide (Nat.Prime n)) = 15 := by
  decide!

/-- C9: with enough fuel (52 units for every loop), `main` of `prime_number_counter.c` returns
15; `check_prime` is non-zero for exactly 15 of the integers 0, ..., 50, namely for the prime
numbers among them, and there are 15 of those. -/
theorem prime_counter_main_returns_15 (fuel : Nat) (hfuel : 52 ≤ fuel) :
    main fuel = some 15 ∧
    (List.range 51).countP
      (fun i : Nat => (check_prime fuel (i : Int)).any (fun r => decide (r ≠ 0))) = 15 ∧
    (∀ i : Nat, i ≤ 50 → check_prime fuel (i : Int) = some (if Nat.Prime i then 1 else 0)) ∧
    (List.range 51).countP (fun n => decide (Nat.Prime n)) = 15 := by
  have hall : ∀ i : Nat, i ≤ 50 →
      check_prime fuel (i : Int) = some (if Nat.Prime i then 1 else 0) := fun i hi =>
    check_prime_fuel_mono hfuel (check_prime_upto_fifty ⟨i, by omega⟩)
  refine ⟨prime_counter_main_fuel_mono hfuel main_fifty_two, ?_, hall, primes_upto_fifty⟩
  rw [← primes_upto_fifty]
  apply List.countP_congr
  intro i hi
  rw [hall i (by have := List.mem_range.mp hi; omega)]
  by_cases hp : Nat.Prime i <;> simp [hp]

/-- C9, with 52 units of fuel. -/
theorem prime_counter_main_returns_15_witness :
    main 52 = some 15 ∧
    (List.range 51).countP
      (fun i : Nat => (check_prime 52 (i : Int)).any (fun r => decide (r ≠ 0))) = 15 ∧
    (∀ i : Nat, i ≤ 50 → check_prime 52 (i : Int) = some (if Nat.Prime i then 1 else 0)) ∧
    (List.range 51).countP (fun n => decide (Nat.Prime n)) = 15 :=
  prime_counter_main_returns_15 52 (by decide)

end PrimeNumberCounter

/-! ## `multu` and `mult` compute the product modulo `2^32` -/

theorem multu_fold (a b : Nat) (n : Nat) :
    (List.range n).foldl (multuStep a b) 0 = ((a % 2 ^ n) * b) % 2 ^ 32 := by
  induction n with
  | zero => simp [Nat.mod_one]
  | succ n ih =>
    rw [List.range_succ, List.foldl_append, ih]
    simp only [List.foldl_cons, List.foldl_nil, multuStep]
    have h1 : 1 &&& (a >>> n) = (a / 2 ^ n) % 2 := by
      rw [Nat.one_and_eq_mod_two, Nat.shiftRight_eq_div_pow]
    have h2 : a % 2 ^ (n + 1) = a % 2 ^ n + 2 ^ n * ((a / 2 ^ n) % 2) := by
      rw [pow_succ]
      exact Nat.mod_mul
    rw [h1, h2, Nat.shiftLeft_eq]
    rcases Nat.mod_two_eq_zero_or_one (a / 2 ^ n) with h | h
    · rw [h]
      simp
    · rw [h]
      simp only [ne_eq, one_ne_zero, not_false_eq_true, if_true, mul_one]
      rw [Nat.add_mod_mod, Nat.mod_add_mod]
      congr 1
      ring

theorem multu_eq (a b : Nat) (ha : a < 2 ^ 32) : multu a b = (a * b) % 2 ^ 32 := by
  unfold multu
  rw [multu_fold, Nat.mod_eq_of_lt ha]

theorem wrap32_sub_wrap32 (x y : Int) : wrap32 (wrap32 x - wrap32 y) = wrap32 (x - y) := by
  unfold wrap32
  omega

theorem wrap32_neg_wrap32 (x : Int) : wrap32 (-wrap32 x) = wrap32 (-x) := by
  unfold wrap32
  omega

theorem wrap32_emod (x : Int) : wrap32 (x % 2 ^ 32) = wrap32 x := by
  unfold wrap32
  omega

theorem int_not_add_one (x : Int) : ~~~x + 1 = -x := by
  cases x with
  | ofNat n => show Int.negSucc n + 1 = -(n : Int); rw [Int.negSucc_eq]; omega
  | negSucc n => show ((n : Int)) + 1 = -Int.negSucc n; rw [Int.negSucc_eq]; omega

theorem shr_eq_div (m : Int) (n : Nat) : m >>> (n : Int) = m / 2 ^ n := by
  have h := Int.shiftRight_eq_div_pow m n
  rw [Nat.cast_pow, Nat.cast_ofNat] at h
  rw [← h]
  cases m with
  | ofNat k => exact Int.shiftRight_coe_nat k n
  | negSucc k => exact Int.shiftRight_negSucc k n

theorem shr31_eq_div (a : Int) : a >>> 31 = a / 2 ^ 31 := by
  have h := shr_eq_div a 31
  rw [Nat.cast_ofNat] at h
  exact h

theorem shr12_eq_div (a : Int) : a >>> 12 = a / 2 ^ 12 := by
  have h := shr_eq_div a 12
  rw [Nat.cast_ofNat] at h
  exact h

theorem shr1_eq_div (a : Int) : a >>> 1 = a / 2 := by
  have h := shr_eq_div a 1
  rw [Nat.cast_one, pow_one] at h
  exact h

theorem sign_of_nonneg {a : Int} (h : 0 ≤ a) (h1 : a < 2 ^ 31) : a >>> 31 = 0 := by
  rw [shr31_eq_div]
  omega

theorem sign_of_neg {a : Int} (h : a < 0) (h1 : -2 ^ 31 ≤ a) : a >>> 31 = -1 := by
  rw [shr31_eq_div]
  omega

theorem toU32_cast (a : Int) : ((toU32 a : Nat) : Int) = a % 2 ^ 32 :=
  Int.toNat_of_nonneg (Int.emod_nonneg _ (by norm_num))

theorem toU32_mul (a b : Int) :
    ((toU32 a * toU32 b % 2 ^ 32 : Nat) : Int) = (a * b) % 2 ^ 32 := by
  simp only [Nat.cast_mul, Int.natCast_mod, Nat.cast_pow, Nat.cast_ofNat, toU32_cast]
  exact (Int.mul_emod a b (2 ^ 32)).symm

theorem toU32_lt (a : Int) : toU32 a < 2 ^ 32 := by
  unfold toU32
  omega

theorem multu_toU32 (a b : Int) : toI32 (multu (toU32 a) (toU32 b)) = wrap32 (a * b) := by
  rw [multu_eq _ _ (toU32_lt a)]
  unfold toI32
  rw [toU32_mul, wrap32_emod]

theorem wrap32_neg_mul_neg (a b : Int) : wrap32 (wrap32 (-a) * wrap32 (-b)) = wrap32 (a * b) := by
  have h : ∀ x : Int, ∃ k : Int, wrap32 x = x + k * 2 ^ 32 := fun x =>
    ⟨-((x + 2 ^ 31) / 2 ^ 32), by unfold wrap32; omega⟩
  obtain ⟨k1, h1⟩ := h (-a)
  obtain ⟨k2, h2⟩ := h (-b)
  rw [h1, h2]
  have e : (-a + k1 * 2 ^ 32) * (-b + k2 * 2 ^ 32) =
      a * b + (-a * k2 - k1 * b + k1 * k2 * 2 ^ 32) * 2 ^ 32 := by ring
  rw [e]
  unfold wrap32
  rw [show a * b + (-a * k2 - k1 * b + k1 * k2 * 2 ^ 32) * 2 ^ 32 + 2 ^ 31 =
    a * b + 2 ^ 31 + (-a * k2 - k1 * b + k1 * k2 * 2 ^ 32) * 2 ^ 32 by ring,
    Int.add_mul_emod_self]

theorem wrap32_mul_left (a b : Int) : wrap32 (wrap32 a * b) = wrap32 (a * b) := by
  obtain ⟨k, h⟩ : ∃ k : Int, wrap32 a = a + k * 2 ^ 32 :=
    ⟨-((a + 2 ^ 31) / 2 ^ 32), by unfold wrap32; omega⟩
  rw [h]
  unfold wrap32
  rw [show (a + k * 2 ^ 32) * b + 2 ^ 31 = a * b + 2 ^ 31 + (k * b) * 2 ^ 32 by ring,
    Int.add_mul_emod_self]

theorem wrap32_mul_right (a b : Int) : wrap32 (a * wrap32 b) = wrap32 (a * b) := by
  rw [mul_comm, wrap32_mul_left, mul_comm]

theorem mult_eq {a b : Int} (ha : -2 ^ 31 ≤ a ∧ a < 2 ^ 31) (hb : -2 ^ 31 ≤ b ∧ b < 2 ^ 31) :
    mult a b = wrap32 (a * b) := by
  unfold mult
  simp only [int_not_add_one, multu_toU32]
  have e00 : Int.xor 0 0 = 0 := by decide
  have e01 : Int.xor 0 (-1) ≠ 0 := by decide
  have e10 : Int.xor (-1) 0 ≠ 0 := by decide
  have e11 : Int.xor (-1) (-1) = 0 := by decide
  have n1 : (-1 : Int) ≠ 0 := by decide
  rcases lt_or_le a 0 with h1 | h1
  · rw [sign_of_neg h1 ha.1]
    rcases lt_or_le b 0 with h2 | h2
    · rw [sign_of_neg h2 hb.1]
      rw [if_pos n1, if_pos n1, if_neg (not_not.mpr e11)]
      exact wrap32_neg_mul_neg a b
    · rw [sign_of_nonneg h2 hb.2]
      rw [if_pos n1, if_neg (not_not.mpr rfl), if_pos e10, wrap32_mul_left, wrap32_neg_wrap32]
      congr 1
      ring
  · rw [sign_of_nonneg h1 ha.2]
    rcases lt_or_le b 0 with h2 | h2
    · rw [sign_of_neg h2 hb.1]
      rw [if_neg (not_not.mpr rfl), if_pos n1, if_pos e01, wrap32_mul_right, wrap32_neg_wrap32]
      congr 1
      ring
    · rw [sign_of_nonneg h2 hb.2]
      rw [if_neg (not_not.mpr rfl), if_neg (not_not.mpr rfl), if_neg (not_not.mpr e00)]

/-! ## `short_mandelbrot.c`: one step of the iteration -/

namespace ShortMandelbrot

/-- C11: for `Z` and `C` at distinct addresses, with the fields of `*Z` in the range of an
`int`, `mandelbrot_iter(Z, C)` leaves in `Z->re` the value `((re*re - im*im) >> 12) + C->re`
and in `Z->im` the value `((re*im + im*re) >> 12) + C->im`, where `re` and `im` are the fields
of `*Z` before the call, every product, difference and sum is reduced to 32 bits, and the shift
is the floor of the division by `2^12`; `*C` and every other object are unchanged, and the new
`*Z` is the value of the function `mandelbrot_iter` on values. -/
theorem mandelbrot_iter_formula (m : InMemory.Memory) (Z C : Nat) (hZC : Z ≠ C)
    (hre : -2 ^ 31 ≤ (m Z).re ∧ (m Z).re < 2 ^ 31)
    (him : -2 ^ 31 ≤ (m Z).im ∧ (m Z).im < 2 ^ 31) :
    (InMemory.mandelbrot_iter m Z C Z).re =
      wrap32 (wrap32 (wrap32 ((m Z).re * (m Z).re) - wrap32 ((m Z).im * (m Z).im)) / 2 ^ 12
        + (m C).re) ∧
    (InMemory.mandelbrot_iter m Z C Z).im =
      wrap32 (wrap32 (wrap32 ((m Z).re * (m Z).im) + wrap32 ((m Z).im * (m Z).re)) / 2 ^ 12
        + (m C).im) ∧
    InMemory.mandelbrot_iter m Z C C = m C ∧
    (∀ q, q ≠ Z → InMemory.mandelbrot_iter m Z C q = m q) ∧
    InMemory.mandelbrot_iter m Z C Z = mandelbrot_iter (m Z) (m C) := by
  have hCZ : C ≠ Z := fun h => hZC h.symm
  have hframe : ∀ q, q ≠ Z → InMemory.mandelbrot_iter m Z C q = m q := by
    intro q hq
    simp [InMemory.mandelbrot_iter, InMemory.complex_add, InMemory.complex_square,
      InMemory.complex_mult, InMemory.storeRe, InMemory.storeIm, hq]
  have hval : InMemory.mandelbrot_iter m Z C Z = mandelbrot_iter (m Z) (m C) := by
    simp [InMemory.mandelbrot_iter, InMemory.complex_add, InMemory.complex_square,
      InMemory.complex_mult, InMemory.storeRe, InMemory.storeIm, hCZ, mandelbrot_iter,
      complex_add, complex_square, complex_mult]
  refine ⟨?_, ?_, hframe C hCZ, hframe, hval⟩
  · rw [hval]
    simp only [mandelbrot_iter, complex_add, complex_square, complex_mult, mult_eq hre hre,
      mult_eq him him, shr12_eq_div]
  · rw [hval]
    simp only [mandelbrot_iter, complex_add, complex_square, complex_mult, mult_eq hre him,
      mult_eq him hre, shr12_eq_div]

/-- C11, at a concrete input: `*Z` is 1.0 - 0.5i at address 0 and `*C` is the first point of the
grid of `main`, at address 1. -/
theorem mandelbrot_iter_formula_witness :
    (InMemory.mandelbrot_iter
      (fun q => if q = 0 then { re := 0x1000, im := -0x800 } else { re := -8113, im := 0x11D0 })
      0 1 0) = { re := -5041, im := 464 } ∧
    (InMemory.mandelbrot_iter
      (fun q => if q = 0 then { re := 0x1000, im := -0x800 } else { re := -8113, im := 0x11D0 })
      0 1 1) = { re := -8113, im := 0x11D0 } :=
  have h := mandelbrot_iter_formula
    (fun q => if q = 0 then { re := 0x1000, im := -0x800 } else { re := -8113, im := 0x11D0 })
    0 1 (by decide) (by decide) (by decide)
  ⟨h.2.2.2.2.trans (by decide), h.2.2.1⟩

end ShortMandelbrot

/-! ## `prime_number_counter.c`: `check_prime` -/

namespace PrimeNumberCounter

theorem floorSqrtLoop_spec (fuel : Nat) : ∀ (x i : Int), 1 ≤ i → (i - 1) * (i - 1) ≤ x →
    x < 2 ^ 30 → 32770 ≤ i + fuel →
    ∃ s, floorSqrtLoop fuel x i (i * i) = some s ∧ 0 ≤ s ∧ s * s ≤ x ∧
      x < (s + 1) * (s + 1) := by
  induction fuel with
  | zero =>
    intro x i h1 h2 h3 h4
    exfalso
    have h5 : (32768 : Int) * 32768 ≤ (i - 1) * (i - 1) :=
      mul_le_mul (by omega) (by omega) (by norm_num) (by omega)
    omega
  | succ n ih =>
    intro x i h1 h2 h3 h4
    have hi : i ≤ 32768 := by
      by_contra hcon
      have h5 : (32768 : Int) * 32768 ≤ (i - 1) * (i - 1) :=
        mul_le_mul (by omega) (by omega) (by norm_num) (by omega)
      omega
    have b1 : -2 ^ 31 ≤ i + 1 ∧ i + 1 < 2 ^ 31 := by omega
    have b3 : -2 ^ 31 ≤ i - 1 ∧ i - 1 < 2 ^ 31 := by omega
    have b4 : 0 ≤ i - 1 := by omega
    have b5 : (32770 : Int) ≤ i + 1 + n := by omega
    have b6 : 1 ≤ i + 1 := by omega
    unfold floorSqrtLoop
    by_cases hc : i * i ≤ x
    · have h6 : (i + 1) * (i + 1) ≤ 32769 * 32769 :=
        mul_le_mul (by omega) (by omega) (by omega) (by norm_num)
      have b2 : -2 ^ 31 ≤ (i + 1) * (i + 1) ∧ (i + 1) * (i + 1) < 2 ^ 31 := by
        constructor
        · have := mul_self_nonneg (i + 1)
          omega
        · omega
      have h7 : (i + 1 - 1) * (i + 1 - 1) ≤ x := by
        rw [add_sub_cancel_right]
        exact hc
      rw [if_pos hc]
      simp only [wrap32_eq_self b1.1 b1.2]
      rw [mult_eq b1 b1, wrap32_eq_self b2.1 b2.2]
      exact ih x (i + 1) b6 h7 h3 b5
    · have h8 : x < (i - 1 + 1) * (i - 1 + 1) := by
        rw [sub_add_cancel]
        exact not_le.mp hc
      rw [if_neg hc, wrap32_eq_self b3.1 b3.2]
      exact ⟨i - 1, rfl, b4, h2, h8⟩


theorem two_pow_pos (j : Nat) : (1 : Int) ≤ 2 ^ j := one_le_pow₀ (by norm_num)

theorem two_pow_lt_of_lt {j : Nat} (h : (2 : Int) ^ j < 2 ^ 31) : j < 31 := by
  by_contra hcon
  have h2 : (2 : Int) ^ 31 ≤ 2 ^ j := pow_le_pow_right₀ (by norm_num) (not_lt.mp hcon)
  omega

theorem le_mul_two_pow {b0 : Int} (h : 1 ≤ b0) (j : Nat) : (2 : Int) ^ j ≤ b0 * 2 ^ j :=
  le_mul_of_one_le_left (by have := two_pow_pos j; omega) h

theorem getRemainderUp_spec (fuel : Nat) : ∀ (a b0 : Int) (j : Nat),
    a < 2 ^ 30 → 1 ≤ b0 → b0 * 2 ^ j < 2 ^ 31 → 32 ≤ fuel + j →
    ∃ k : Nat, getRemainderUp fuel a (b0 * 2 ^ j) (2 ^ j) = some (b0 * 2 ^ k, 2 ^ k) ∧
      a < b0 * 2 ^ k ∧ b0 * 2 ^ k < 2 ^ 31 := by
  induction fuel with
  | zero =>
    intro a b0 j _ h1 h2 h3
    exfalso
    have h4 := le_mul_two_pow h1 j
    have h5 : j < 31 := two_pow_lt_of_lt (lt_of_le_of_lt h4 h2)
    omega
  | succ n ih =>
    intro a b0 j h0 h1 h2 h3
    have h4 := le_mul_two_pow h1 j
    have h5 := two_pow_pos j
    have h6 : 32 ≤ n + (j + 1) := by omega
    have e1 : b0 * 2 ^ j * 2 = b0 * 2 ^ (j + 1) := by ring
    have e2 : (2 : Int) ^ j * 2 = 2 ^ (j + 1) := by ring
    unfold getRemainderUp
    by_cases hc : b0 * 2 ^ j ≤ a
    · have b1 : -2 ^ 31 ≤ b0 * 2 ^ j * 2 ∧ b0 * 2 ^ j * 2 < 2 ^ 31 := by omega
      have b2 : -2 ^ 31 ≤ (2 : Int) ^ j * 2 ∧ (2 : Int) ^ j * 2 < 2 ^ 31 := by omega
      have h7 : b0 * 2 ^ (j + 1) < 2 ^ 31 := by rw [← e1]; exact b1.2
      rw [if_pos hc, wrap32_eq_self b1.1 b1.2, wrap32_eq_self b2.1 b2.2, e1, e2]
      exact ih a b0 (j + 1) h0 h1 h7 h6
    · rw [if_neg hc]
      exact ⟨j, rfl, not_le.mp hc, h2⟩

theorem getRemainderDown_spec (fuel : Nat) : ∀ (a b0 : Int) (j : Nat),
    0 ≤ a → 1 ≤ b0 → a < b0 * 2 ^ j → b0 * 2 ^ j < 2 ^ 31 → j < fuel →
    getRemainderDown fuel a (b0 * 2 ^ j) (2 ^ j) = some (a % b0) := by
  induction fuel with
  | zero => intro _ _ _ _ _ _ _ h; omega
  | succ n ih =>
    intro a b0 j h0 h1 h2 h3 h4
    unfold getRemainderDown
    cases j with
    | zero =>
      have h5 : a < b0 := by simpa using h2
      have h6 : ¬ ((2 : Int) ^ 0 > 1) := by norm_num
      rw [if_neg h6, Int.emod_eq_of_lt h0 h5]
    | succ j =>
      have h5 := two_pow_pos j
      have h6 : (2 : Int) ^ (j + 1) > 1 := by
        have : (2 : Int) ^ (j + 1) = 2 ^ j * 2 := by ring
        omega
      have h7 := le_mul_two_pow h1 j
      have e1 : b0 * 2 ^ (j + 1) = b0 * 2 ^ j * 2 := by ring
      have e2 : (2 : Int) ^ (j + 1) = 2 ^ j * 2 := by ring
      have e3 : b0 * 2 ^ j * 2 / 2 = b0 * 2 ^ j := by omega
      have e4 : (2 : Int) ^ j * 2 / 2 = 2 ^ j := by omega
      have h8 : b0 * 2 ^ j < 2 ^ 31 := by omega
      have h9 : j < n := by omega
      have h10 : a < b0 * 2 ^ j * 2 := by rw [← e1]; exact h2
      rw [if_pos h6]
      simp only [shr1_eq_div]
      rw [e1, e2, e3, e4]
      by_cases hc : a ≥ b0 * 2 ^ j
      · have b1 : -2 ^ 31 ≤ a - b0 * 2 ^ j ∧ a - b0 * 2 ^ j < 2 ^ 31 := by omega
        have h11 : 0 ≤ a - b0 * 2 ^ j := by omega
        have h12 : a - b0 * 2 ^ j < b0 * 2 ^ j := by omega
        have e5 : (a - b0 * 2 ^ j) % b0 = a % b0 := by
          have : a - b0 * 2 ^ j = a + b0 * (-(2 ^ j)) := by ring
          rw [this, Int.add_mul_emod_self_left]
        rw [if_pos hc, wrap32_eq_self b1.1 b1.2, ih _ b0 j h11 h1 h12 h8 h9, e5]
      · have h12 : a < b0 * 2 ^ j := not_le.mp hc
        rw [if_neg hc, ih a b0 j h0 h1 h12 h8 h9]

theorem getRemainder_spec {fuel : Nat} {a b : Int} (hfuel : 32 ≤ fuel) (h0 : 0 ≤ a)
    (h1 : a < 2 ^ 30) (h2 : 1 ≤ b) (h3 : b < 2 ^ 31) :
    getRemainder fuel a b = some (a % b) := by
  have e1 : b * 2 ^ 0 = b := by ring
  have h4 : b * 2 ^ 0 < 2 ^ 31 := by rw [e1]; exact h3
  obtain ⟨k, hk, hk1, hk2⟩ := getRemainderUp_spec fuel a b 0 h1 h2 h4 (by omega)
  have h5 : k < fuel := by
    have := two_pow_lt_of_lt (lt_of_le_of_lt (le_mul_two_pow h2 k) hk2)
    omega
  unfold getRemainder
  rw [e1, pow_zero] at hk
  rw [hk]
  exact getRemainderDown_spec fuel a b k h0 h2 hk1 hk2 h5


theorem sqrt_bound {n s : Nat} (h1 : s * s ≤ n) (h2 : n < 2 ^ 30) : s < 32768 := by
  by_contra hcon
  have h3 : 32768 * 32768 ≤ s * s := Nat.mul_le_mul (not_lt.mp hcon) (not_lt.mp hcon)
  omega

theorem check_primeLoop_spec (callFuel : Nat) (hcall : 32 ≤ callFuel) (n s : Nat)
    (h4 : 4 ≤ n) (hn : n < 2 ^ 30) (hs1 : s * s ≤ n) (hs2 : n < (s + 1) * (s + 1))
    (fuel : Nat) : ∀ k : Nat, 2 ≤ k → k ≤ s + 1 → s + 2 ≤ fuel + k →
    (∀ d, 2 ≤ d → d < k → ¬ d ∣ n) →
    check_primeLoop callFuel fuel (n : Int) (s : Int) (k : Int) =
      some (if Nat.Prime n then 1 else 0) := by
  have hs3 : s < 32768 := sqrt_bound hs1 hn
  have hs4 : 2 ≤ s := by
    by_contra hcon
    have : (s + 1) * (s + 1) ≤ 2 * 2 := Nat.mul_le_mul (by omega) (by omega)
    omega
  have hs5 : s < n := by
    have : 2 * s ≤ s * s := Nat.mul_le_mul hs4 le_rfl
    omega
  induction fuel with
  | zero => intro k _ h2 h3 _; omega
  | succ f ih =>
    intro k hk1 hk2 hk3 hdiv
    have a0 : (0 : Int) ≤ (n : Int) := by omega
    have a1 : (n : Int) < 2 ^ 30 := by omega
    have a2 : (1 : Int) ≤ (k : Int) := by omega
    have a3 : (k : Int) < 2 ^ 31 := by omega
    have b1 : -2 ^ 31 ≤ (k : Int) + 1 ∧ (k : Int) + 1 < 2 ^ 31 := by omega
    have e1 : (k : Int) + 1 = ((k + 1 : Nat) : Int) := by push_cast; rfl
    have e2 : (n : Int) % (k : Int) = ((n % k : Nat) : Int) := (Int.natCast_mod n k).symm
    unfold check_primeLoop
    by_cases hc : (k : Int) ≤ (s : Int)
    · have hks : k ≤ s := by omega
      have hk4 : k + 1 ≤ s + 1 := by omega
      have hk5 : s + 2 ≤ f + (k + 1) := by omega
      rw [if_pos hc, getRemainder_spec hcall a0 a1 a2 a3, e2]
      simp only
      by_cases hr : ((n % k : Nat) : Int) = 0
      · have hr2 : n % k = 0 := by exact_mod_cast hr
        have hdvd : k ∣ n := Nat.dvd_of_mod_eq_zero hr2
        have hnp : ¬ Nat.Prime n := by
          intro hp
          rcases (Nat.dvd_prime hp).mp hdvd with h | h
          · omega
          · omega
        rw [if_pos hr, if_neg hnp]
      · have hr2 : ¬ k ∣ n := fun hd => hr (by exact_mod_cast Nat.mod_eq_zero_of_dvd hd)
        rw [if_neg hr, wrap32_eq_self b1.1 b1.2, e1]
        refine ih (k + 1) (by omega) hk4 hk5 ?_
        intro d hd1 hd2
        by_cases hdk : d = k
        · rw [hdk]; exact hr2
        · exact hdiv d hd1 (by omega)
    · have hks : k = s + 1 := by omega
      have hp : Nat.Prime n := by
        rw [Nat.prime_def_le_sqrt]
        refine ⟨by omega, fun m hm1 hm2 => hdiv m hm1 ?_⟩
        have hm3 : m * m ≤ n := Nat.le_sqrt.mp hm2
        have hm4 : m * m < (s + 1) * (s + 1) := lt_of_le_of_lt hm3 hs2
        rw [hks]
        exact Nat.mul_self_lt_mul_self_iff.mp hm4
      rw [if_neg hc, if_pos hp]

theorem floorSqrt_spec {fuel : Nat} (hfuel : 32769 ≤ fuel) {x : Int} (hx : x < 2 ^ 30) :
    ∃ s, floorSqrt fuel x = some s ∧ (2 ≤ x → 0 ≤ s ∧ s * s ≤ x ∧ x < (s + 1) * (s + 1)) := by
  unfold floorSqrt
  by_cases h01 : x = 0 ∨ x = 1
  · rw [if_pos h01]
    exact ⟨x, rfl, fun h2 => by omega⟩
  · rw [if_neg h01]
    by_cases h2 : 2 ≤ x
    · have a1 : ((1 : Int) - 1) * (1 - 1) ≤ x := by norm_num; omega
      have a2 : (32770 : Int) ≤ 1 + fuel := by omega
      obtain ⟨s, hs, hs0, hs1, hs2⟩ := floorSqrtLoop_spec fuel x 1 le_rfl a1 hx a2
      rw [one_mul] at hs
      exact ⟨s, hs, fun _ => ⟨hs0, hs1, hs2⟩⟩
    · obtain ⟨f, rfl⟩ : ∃ f, fuel = f + 1 := ⟨fuel - 1, by omega⟩
      have a3 : ¬ (1 : Int) ≤ x := by omega
      unfold floorSqrtLoop
      rw [if_neg a3]
      exact ⟨_, rfl, fun h => absurd h h2⟩


/-- C8: `check_prime(a)` returns, given 32769 units of fuel or more, for every `a < 2^30`,
negative values included: 1 when `a` is a prime number and 0 when it is not. -/
theorem check_prime_decides_primality (fuel : Nat) (a : Int) (hfuel : 32769 ≤ fuel)
    (ha : a < 2 ^ 30) :
    check_prime fuel a = some (if Nat.Prime a.toNat then 1 else 0) := by
  obtain ⟨s, hs, hs1⟩ := floorSqrt_spec hfuel ha
  unfold check_prime
  rw [hs]
  simp only
  by_cases h2 : a < 2
  · have hnp : ¬ Nat.Prime a.toNat := by
      intro hp
      have := hp.two_le
      omega
    rw [if_pos h2, if_neg hnp]
  · by_cases h23 : a = 2 ∨ a = 3
    · have hp : Nat.Prime a.toNat := by
        rcases h23 with h | h
        · rw [h]; exact Nat.prime_two
        · rw [h]; exact Nat.prime_three
      rw [if_neg h2, if_pos h23, if_pos hp]
    · obtain ⟨hs0, hs2, hs3⟩ := hs1 (by omega)
      obtain ⟨n, rfl⟩ : ∃ n : Nat, a = (n : Int) := ⟨a.toNat, by omega⟩
      obtain ⟨t, rfl⟩ : ∃ t : Nat, s = (t : Int) := ⟨s.toNat, by omega⟩
      have c1 : 4 ≤ n := by omega
      have c2 : n < 2 ^ 30 := by omega
      have c3 : t * t ≤ n := by exact_mod_cast hs2
      have c4 : n < (t + 1) * (t + 1) := by exact_mod_cast hs3
      have c5 : t < 32768 := sqrt_bound c3 c2
      have c6 : 2 ≤ t + 1 := by
        by_contra hcon
        have : t = 0 := by omega
        subst this
        omega
      have c7 : t + 2 ≤ fuel + 2 := by omega
      have c8 : ∀ d, 2 ≤ d → d < 2 → ¬ d ∣ n := fun d h1 h2 => by omega
      rw [if_neg h2, if_neg h23, Int.toNat_natCast]
      exact check_primeLoop_spec fuel (by omega) n t c1 c2 c3 c4 fuel 2 le_rfl c6 c7 c8

/-- C8, at concrete inputs: 47 is found prime. -/
theorem check_prime_decides_primality_witness : check_prime 32769 47 = some 1 :=
  (check_prime_decides_primality 32769 47 (by decide) (by decide)).trans
    (by rw [if_pos (show Nat.Prime (Int.toNat 47) from (by norm_num : Nat.Prime 47))])

end PrimeNumberCounter

/-! ## `binary_search.c`: `sort` -/

namespace BinarySearch

theorem writeAt_cast (data : List Int) (k : Nat) (v : Int) (h : k < data.length) :
    writeAt data (k : Int) v = some (data.set k v) := by
  simp [writeAt, h]

theorem swap_append (pre post : List Int) (a b : Int) :
    ((pre ++ a :: b :: post).set pre.length b).set (pre.length + 1) a =
      pre ++ b :: a :: post := by
  simp [List.set_append]

theorem split_at_pair (l : List Int) (j : Nat) (h : j + 1 < l.length) :
    l = l.take j ++ l[j] :: l[j + 1] :: l.drop (j + 2) := by
  have h1 : l.drop j = l[j] :: l.drop (j + 1) := List.drop_eq_getElem_cons (by omega)
  have h2 : l.drop (j + 1) = l[j + 1] :: l.drop (j + 2) := List.drop_eq_getElem_cons h
  rw [← h2, ← h1, List.take_append_drop]

theorem swap_perm_of_eq (l pre post : List Int) (a b : Int) (hl : l = pre ++ a :: b :: post) :
    ((l.set pre.length b).set (pre.length + 1) a).Perm l := by
  subst hl
  rw [swap_append]
  exact List.Perm.append_left _ (List.Perm.swap _ _ _)

theorem swap_perm (l : List Int) (j : Nat) (h : j + 1 < l.length) (a b : Int)
    (ha : l[j]? = some a) (hb : l[j + 1]? = some b) :
    ((l.set j b).set (j + 1) a).Perm l := by
  have hlen : (l.take j).length = j := by rw [List.length_take]; omega
  have ea : l[j] = a := by
    rw [List.getElem?_eq_getElem (by omega)] at ha
    exact Option.some.inj ha
  have eb : l[j + 1] = b := by
    rw [List.getElem?_eq_getElem h] at hb
    exact Option.some.inj hb
  have h1 := split_at_pair l j h
  rw [ea, eb] at h1
  have h2 := swap_perm_of_eq l (l.take j) (l.drop (j + 2)) a b h1
  rw [hlen] at h2
  exact h2

theorem swap_getElem (l : List Int) (j : Nat) (h : j + 1 < l.length) (a b : Int) (k : Nat) :
    ((l.set j b).set (j + 1) a)[k]? =
      if k = j + 1 then some a else if k = j then some b else l[k]? := by
  rw [List.getElem?_set, List.getElem?_set, List.length_set]
  by_cases h1 : k = j + 1
  · subst h1
    simp [h]
  · by_cases h2 : k = j
    · subst h2
      have : k < l.length := by omega
      simp [this]
    · have h3 : ¬ j + 1 = k := fun e => h1 e.symm
      have h4 : ¬ j = k := fun e => h2 e.symm
      simp [h1, h2, h3, h4]


theorem optLe_some {a b : Int} (h : a ≤ b) : OptLe (some a) (some b) := by
  intro x y hx hy
  rw [← Option.some.inj hx, ← Option.some.inj hy]
  exact h

theorem optLe_self (a : Option Int) : OptLe a a := by
  intro x y hx hy
  rw [hx] at hy
  rw [Option.some.inj hy]

theorem OptLe.trans_some {a : Option Int} {b c : Int} (h : OptLe a (some b)) (hbc : b ≤ c) :
    OptLe a (some c) := by
  intro x y hx hy
  rw [← Option.some.inj hy]
  exact le_trans (h x b hx rfl) hbc

theorem sortInner_spec (count i : Int) (m : Nat)
    (hm : wrap32 (wrap32 (count - i) - 1) = (m : Int)) (fuel : Nat) :
    ∀ (data : List Int) (j : Nat), j ≤ m → m < data.length → data.length < 2 ^ 31 →
      m - j < fuel →
      ∃ r, sortInner fuel data count i (j : Int) = some r ∧ r.length = data.length ∧
        r.Perm data ∧
        (∀ k, m < k → r[k]? = data[k]?) ∧
        (∀ k, k ≤ m → ∃ k2, k2 ≤ m ∧ r[k]? = data[k2]?) ∧
        ((∀ k, k ≤ j → OptLe data[k]? data[j]?) → ∀ k, k ≤ m → OptLe r[k]? r[m]?) := by
  induction fuel with
  | zero => intro _ _ _ _ _ h; omega
  | succ n ih =>
    intro data j hjm hml hlen hfuel
    rw [sortInner, hm]
    clear hm
    by_cases hc : (j : Int) < (m : Int)
    · have hj1 : j + 1 ≤ m := by omega
      have hj2 : j + 1 < data.length := by omega
      have hj3 : j < data.length := by omega
      have hfuel2 : m - (j + 1) < n := by omega
      have b1 : -2 ^ 31 ≤ (j : Int) + 1 ∧ (j : Int) + 1 < 2 ^ 31 := by omega
      have e0 : (j : Int) + 1 = ((j + 1 : Nat) : Int) := by push_cast; rfl
      have e1 : wrap32 ((j : Int) + 1) = ((j + 1 : Nat) : Int) := by
        rw [wrap32_eq_self b1.1 b1.2, e0]
      have hcur : data[j]? = some data[j] := List.getElem?_eq_getElem hj3
      have hnext : data[j + 1]? = some data[j + 1] := List.getElem?_eq_getElem hj2
      have hlen1 : j + 1 < (data.set j data[j + 1]).length := by
        rw [List.length_set]; exact hj2
      have hlen2 : ((data.set j data[j + 1]).set (j + 1) data[j]).length = data.length := by
        rw [List.length_set, List.length_set]
      rw [if_pos hc, e1, readAt_natCast, readAt_natCast, hnext, hcur]
      simp only
      by_cases hlt : data[j + 1] < data[j]
      · rw [if_pos hlt, writeAt_cast data j _ hj3]
        simp only
        rw [writeAt_cast _ (j + 1) _ hlen1]
        simp only
        obtain ⟨r, hr, hr1, hr2, hr3, hr4, hr5⟩ := ih _ (j + 1) hj1
          (lt_of_lt_of_eq hml hlen2.symm) (lt_of_eq_of_lt hlen2 hlen) hfuel2
        refine ⟨r, hr, hr1.trans hlen2, hr2.trans (swap_perm data j hj2 _ _ hcur hnext),
          ?_, ?_, ?_⟩
        · intro k hk
          have c1 : ¬ k = j + 1 := by omega
          have c2 : ¬ k = j := by omega
          rw [hr3 k hk, swap_getElem data j hj2, if_neg c1, if_neg c2]
        · intro k hk
          obtain ⟨k2, hk2, hk3⟩ := hr4 k hk
          rw [swap_getElem data j hj2] at hk3
          by_cases c1 : k2 = j + 1
          · rw [if_pos c1] at hk3
            exact ⟨j, hjm, by rw [hk3, hcur]⟩
          · rw [if_neg c1] at hk3
            by_cases c2 : k2 = j
            · rw [if_pos c2] at hk3
              exact ⟨j + 1, hj1, by rw [hk3, hnext]⟩
            · rw [if_neg c2] at hk3
              exact ⟨k2, hk2, hk3⟩
        · intro hmax
          apply hr5
          intro k hk
          rw [swap_getElem data j hj2, swap_getElem data j hj2, if_pos rfl]
          by_cases c1 : k = j + 1
          · rw [if_pos c1]
            exact optLe_self _
          · rw [if_neg c1]
            by_cases c2 : k = j
            · rw [if_pos c2]
              exact optLe_some (le_of_lt hlt)
            · rw [if_neg c2]
              have c3 : k ≤ j := by omega
              exact hmax k c3
      · rw [if_neg hlt]
        obtain ⟨r, hr, hr1, hr2, hr3, hr4, hr5⟩ := ih data (j + 1) hj1 hml hlen hfuel2
        refine ⟨r, hr, hr1, hr2, hr3, hr4, fun hmax => hr5 ?_⟩
        intro k hk
        rw [hnext]
        by_cases c1 : k = j + 1
        · rw [c1, hnext]
          exact optLe_self _
        · have c3 : k ≤ j := by omega
          exact (hmax k c3).trans_some (not_lt.mp hlt)
    · rw [if_neg hc]
      have hjm2 : j = m := by omega
      subst hjm2
      exact ⟨data, rfl, rfl, List.Perm.refl _, fun _ _ => rfl, fun k hk => ⟨k, hk, rfl⟩,
        fun hmax => hmax⟩


theorem sortOuter_spec (c innerFuel : Nat) (hin : c ≤ innerFuel) (fuel : Nat) :
    ∀ (data : List Int) (i : Nat), i + 1 ≤ c → c ≤ data.length → data.length < 2 ^ 31 →
      c - 1 - i < fuel →
      (∀ k l, c - i ≤ k → k ≤ l → l < c → OptLe data[k]? data[l]?) →
      (∀ k l, k < c - i → c - i ≤ l → l < c → OptLe data[k]? data[l]?) →
      ∃ r, sortOuter innerFuel fuel data (c : Int) (i : Int) = some r ∧
        r.length = data.length ∧ r.Perm data ∧
        (∀ k, c ≤ k → r[k]? = data[k]?) ∧
        (∀ k l, k ≤ l → l < c → OptLe r[k]? r[l]?) := by
  induction fuel with
  | zero => intro _ _ _ _ _ h; omega
  | succ n ih =>
    intro data i hic hcl hlen hfuel inv1 inv2
    have b1 : -2 ^ 31 ≤ (c : Int) - 1 ∧ (c : Int) - 1 < 2 ^ 31 := by omega
    have b2 : -2 ^ 31 ≤ (c : Int) - (i : Int) ∧ (c : Int) - (i : Int) < 2 ^ 31 := by omega
    have b3 : -2 ^ 31 ≤ (c : Int) - (i : Int) - 1 ∧ (c : Int) - (i : Int) - 1 < 2 ^ 31 := by
      omega
    have b4 : -2 ^ 31 ≤ (i : Int) + 1 ∧ (i : Int) + 1 < 2 ^ 31 := by omega
    have e0 : (i : Int) + 1 = ((i + 1 : Nat) : Int) := by push_cast; rfl
    have e1 : (c : Int) - (i : Int) - 1 = ((c - i - 1 : Nat) : Int) := by omega
    have e2 : ((0 : Nat) : Int) = 0 := rfl
    rw [sortOuter, wrap32_eq_self b1.1 b1.2]
    by_cases hc : (i : Int) < (c : Int) - 1
    · have hm : wrap32 (wrap32 ((c : Int) - (i : Int)) - 1) = ((c - i - 1 : Nat) : Int) := by
        rw [wrap32_eq_self b2.1 b2.2, wrap32_eq_self b3.1 b3.2, e1]
      have g1 : 0 ≤ c - i - 1 := Nat.zero_le _
      have g2 : c - i - 1 < data.length := by omega
      have g3 : c - i - 1 - 0 < innerFuel := by omega
      have g4 : i + 1 + 1 ≤ c := by omega
      have g5 : c - 1 - (i + 1) < n := by omega
      have g6 : ∀ k, c ≤ k → c - i - 1 < k := fun k hk => by omega
      have g7 : c - (i + 1) = c - i - 1 := by omega
      have g8 : ∀ k l, c - i - 1 ≤ k → k ≤ l → ¬ k = l →
          c - i - 1 < l ∧ c - i ≤ l ∧ (¬ k = c - i - 1 → c - i - 1 < k ∧ c - i ≤ k) :=
        fun k l h1 h2 h3 => by omega
      have g9 : ∀ k2, k2 ≤ c - i - 1 → k2 < c - i := fun k2 h => by omega
      have g10 : ∀ k l, k < c - i - 1 → c - i - 1 ≤ l →
          k ≤ c - i - 1 ∧ (¬ l = c - i - 1 → c - i - 1 < l ∧ c - i ≤ l) :=
        fun k l h1 h2 => by omega
      obtain ⟨d1, hd, hd1, hd2, hd3, hd4, hd5⟩ :=
        sortInner_spec (c : Int) (i : Int) (c - i - 1) hm innerFuel data 0 g1 g2 hlen g3
      have hmax := hd5 (fun k hk => by
        have : k = 0 := Nat.le_zero.mp hk
        rw [this]
        exact optLe_self _)
      rw [e2] at hd
      rw [if_pos hc, hd]
      simp only
      rw [wrap32_eq_self b4.1 b4.2, e0]
      obtain ⟨r, hr, hr1, hr2, hr3, hr4⟩ := ih d1 (i + 1) g4 (hd1 ▸ hcl) (hd1 ▸ hlen) g5
        (by
          intro k l h1 h2 h3
          rw [g7] at h1
          by_cases hkl : k = l
          · rw [hkl]; exact optLe_self _
          · obtain ⟨q1, q2, q3⟩ := g8 k l h1 h2 hkl
            rw [hd3 l q1]
            by_cases hkm : k = c - i - 1
            · obtain ⟨k2, hk2, hk3⟩ := hd4 k (le_of_eq hkm)
              rw [hk3]
              exact inv2 k2 l (g9 k2 hk2) q2 h3
            · obtain ⟨q4, q5⟩ := q3 hkm
              rw [hd3 k q4]
              exact inv1 k l q5 h2 h3)
        (by
          intro k l h1 h2 h3
          rw [g7] at h1 h2
          obtain ⟨q1, q2⟩ := g10 k l h1 h2
          by_cases hlm : l = c - i - 1
          · rw [hlm]; exact hmax k q1
          · obtain ⟨q3, q4⟩ := q2 hlm
            obtain ⟨k2, hk2, hk3⟩ := hd4 k q1
            rw [hd3 l q3, hk3]
            exact inv2 k2 l (g9 k2 hk2) q4 h3)
      refine ⟨r, hr, hr1.trans hd1, hr2.trans hd2, fun k hk => ?_, hr4⟩
      rw [hr3 k hk, hd3 k (g6 k hk)]
    · rw [if_neg hc]
      have g1 : ∀ k, ¬ k = 0 → c - i ≤ k := fun k hk => by omega
      have g2 : 0 < c - i := by omega
      have g3 : ∀ l, ¬ (0 : Nat) = l → c - i ≤ l := fun l hl => by omega
      refine ⟨data, rfl, rfl, List.Perm.refl _, fun _ _ => rfl, fun k l hkl hl => ?_⟩
      by_cases hk0 : k = 0
      · by_cases h0l : (0 : Nat) = l
        · rw [hk0, ← h0l]; exact optLe_self _
        · rw [hk0]; exact inv2 0 l g2 (g3 l h0l) hl
      · exact inv1 k l (g1 k hk0) hkl hl


set_option maxRecDepth 100000 in
theorem sort_example_nine :
    sort 9 [0, 6, 8, 4, 3, 9, 7, 5] 8 = some [0, 3, 4, 5, 6, 7, 8, 9] := by decide!

theorem sort_spec_nat (fuel : Nat) (data : List Int) (c : Nat) (h1 : c ≤ data.length)
    (hlen : data.length < 2 ^ 31) (hfuel : c < fuel) :
    ∃ r, sort fuel data (c : Int) = some r ∧ r.length = data.length ∧ r.Perm data ∧
      (∀ k, c ≤ k → r[k]? = data[k]?) ∧
      (∀ k l, k ≤ l → l < c → OptLe r[k]? r[l]?) ∧
      (c ≤ 1 → r = data) := by
  by_cases hc : c ≤ 1
  · obtain ⟨f, rfl⟩ : ∃ f, fuel = f + 1 := ⟨fuel - 1, by omega⟩
    have b1 : -2 ^ 31 ≤ (c : Int) - 1 ∧ (c : Int) - 1 < 2 ^ 31 := by omega
    have b2 : ¬ (0 : Int) < (c : Int) - 1 := by omega
    have g1 : ∀ k l, k ≤ l → l < c → k = l := fun k l h1 h2 => by omega
    refine ⟨data, ?_, rfl, List.Perm.refl _, fun _ _ => rfl, fun k l hkl hl => ?_, fun _ => rfl⟩
    · unfold sort
      rw [sortOuter, wrap32_eq_self b1.1 b1.2, if_neg b2]
    · rw [g1 k l hkl hl]
      exact optLe_self _
  · have g1 : 0 + 1 ≤ c := by omega
    have g2 : c - 1 - 0 < fuel := by omega
    have g3 : ∀ k l, c - 0 ≤ k → k ≤ l → l < c → False := fun k l h1 h2 h3 => by omega
    have g4 : ∀ k l, k < c - 0 → c - 0 ≤ l → l < c → False := fun k l h1 h2 h3 => by omega
    have e2 : ((0 : Nat) : Int) = 0 := rfl
    obtain ⟨r, hr, hr1, hr2, hr3, hr4⟩ := sortOuter_spec c fuel (le_of_lt hfuel) fuel data 0
      g1 h1 hlen g2 (fun k l h1 h2 h3 => (g3 k l h1 h2 h3).elim)
      (fun k l h1 h2 h3 => (g4 k l h1 h2 h3).elim)
    rw [e2] at hr
    exact ⟨r, hr, hr1, hr2, hr3, hr4, fun h => absurd h hc⟩

/-- C7: for `0 ≤ count ≤` the length of the array (which fits an `int`), `sort(data, count)`
returns with more than `count` units of fuel; it leaves an array of the same length whose
elements `0, ..., count - 1` are in non-decreasing order and are a permutation of the elements
that were there before, it leaves the elements from `count` on as they were, and for
`count ≤ 1` it leaves the whole array as it was.  The array of `main` becomes
0, 3, 4, 5, 6, 7, 8, 9. -/
theorem sort_correct (fuel : Nat) (data : List Int) (count : Int) (h0 : 0 ≤ count)
    (h1 : count ≤ data.length) (hlen : data.length < 2 ^ 31) (hfuel : count.toNat < fuel) :
    (∃ r, sort fuel data count = some r ∧ r.length = data.length ∧
      SortedOn r 0 (count - 1) ∧
      (r.take count.toNat).Perm (data.take count.toNat) ∧
      r.drop count.toNat = data.drop count.toNat ∧
      (count ≤ 1 → r = data)) ∧
    (9 ≤ fuel → sort fuel [0, 6, 8, 4, 3, 9, 7, 5] 8 = some [0, 3, 4, 5, 6, 7, 8, 9]) := by
  refine ⟨?_, fun h9 => sort_fuel_mono h9 sort_example_nine⟩
  obtain ⟨c, rfl⟩ : ∃ c : Nat, count = (c : Int) := ⟨count.toNat, by omega⟩
  have a1 : c ≤ data.length := by omega
  have a2 : c < fuel := by omega
  have a3 : ∀ j : Nat, (j : Int) ≤ (c : Int) - 1 → j < c := fun j h => by omega
  have a4 : (c : Int) ≤ 1 → c ≤ 1 := fun h => by omega
  obtain ⟨r, hr, hr1, hr2, hr3, hr4, hr5⟩ := sort_spec_nat fuel data c a1 hlen a2
  have hdrop : r.drop c = data.drop c := by
    apply List.ext_getElem?
    intro k
    rw [List.getElem?_drop, List.getElem?_drop]
    exact hr3 (c + k) (Nat.le_add_right c k)
  have hperm : (r.take c).Perm (data.take c) := by
    have h := hr2
    rw [← List.take_append_drop c r, ← List.take_append_drop c data, hdrop] at h
    exact (List.perm_append_right_iff _).mp h
  rw [Int.toNat_natCast]
  exact ⟨r, hr, hr1, fun i j _ hij hj => hr4 i j hij (a3 j hj), hperm, hdrop,
    fun h => hr5 (a4 h)⟩

/-- C7, on the array of `main` with 9 units of fuel. -/
theorem sort_correct_witness :
    (∃ r, sort 9 [0, 6, 8, 4, 3, 9, 7, 5] 8 = some r ∧
      r.length = [0, 6, 8, 4, 3, 9, 7, 5].length ∧
      SortedOn r 0 (8 - 1) ∧
      (r.take (8 : Int).toNat).Perm ([0, 6, 8, 4, 3, 9, 7, 5].take (8 : Int).toNat) ∧
      r.drop (8 : Int).toNat = [0, 6, 8, 4, 3, 9, 7, 5].drop (8 : Int).toNat ∧
      ((8 : Int) ≤ 1 → r = [0, 6, 8, 4, 3, 9, 7, 5])) ∧
    (9 ≤ 9 → sort 9 [0, 6, 8, 4, 3, 9, 7, 5] 8 = some [0, 3, 4, 5, 6, 7, 8, 9]) :=
  sort_correct 9 [0, 6, 8, 4, 3, 9, 7, 5] 8 (by decide) (by decide) (by decide) (by decide)

end BinarySearch

end Trireme
